import Mathlib

/-!
# Verification of the agentloop workflow orchestration engine

A shallow embedding, in Lean 4, of the core of the `agentloop` TypeScript
repository: the template resolver and condition evaluator
(`src/utils/template.ts`), the step grouper, the loop re-entry calculation
and the iteration driver (`src/core/engine.ts`), the adapter result
mappings (`src/adapters/*.ts`), and the prerequisite check
(`src/adapters/index.ts`).

Conventions of the embedding:
* Strings are modelled by Lean `String` / `List Char`; the JavaScript
  character classes `\w`, `\s` and JS regular-expression matching for the
  fixed patterns used by the code are translated into executable
  maximal-munch parsers (the patterns' character classes are pairwise
  disjoint where greediness matters, so maximal munch coincides with the
  backtracking semantics; where it does not — the quote part of the
  `contains` pattern, the `(.+)$` tail of the `==` pattern and the
  group of the loop-reference pattern — the parser mirrors the
  backtracking outcome exactly, as argued in the comments).
* The engine's mutable `variables` object is an association list with
  JS-object update semantics (`setVar` overwrites in place, appends fresh
  keys at the end).
* External subprocesses are oracles: a `Behavior` maps a step name,
  iteration number and fully resolved input text to a `StepResult`;
  the adapters' result mappings take an abstract `ProcOutcome`.
* Real time, process spawning and the file system are outside the model;
  only the data flow the claims speak about is embedded.
* Recursions that consume a computed suffix of the input use an explicit
  fuel argument initialised with the input length, so every definition
  evaluates by kernel reduction; fuel-irrelevance lemmas recover the
  natural unfolding equations.
-/

/-! ## List helpers -/

theorem length_dropWhile_le (p : α → Bool) (l : List α) :
    (l.dropWhile p).length ≤ l.length := by
  induction l with
  | nil => simp
  | cons x xs ih =>
    by_cases h : p x
    · simp [List.dropWhile_cons, h]
      omega
    · simp [List.dropWhile_cons, h]

/-! ## JavaScript character classes and string primitives -/

/-- JS regex `\w`: ASCII letters, digits, underscore. -/
def isWordChar (c : Char) : Bool :=
  (('a' ≤ c && c ≤ 'z') || ('A' ≤ c && c ≤ 'Z') || ('0' ≤ c && c ≤ '9') || c = '_')

/-- JS regex `\s`, restricted to its ASCII members (space, tab, LF, VT, FF, CR). -/
def isJsSpace (c : Char) : Bool :=
  (c = ' ' || c = '\t' || c = '\n' || c = '\x0b' || c = '\x0c' || c = '\r')

/-- Character class `[\w.]` of the template-token and condition-path patterns. -/
def isTokenChar (c : Char) : Bool :=
  isWordChar c || c = '.'

/-- Character class `[\w\-.]` of the loop-reference pattern in `engine.ts`. -/
def isRefChar (c : Char) : Bool :=
  isWordChar c || c = '-' || c = '.'

/-- JS `String.prototype.trim` on a character list. -/
def jsTrimChars (l : List Char) : List Char :=
  ((l.dropWhile isJsSpace).reverse.dropWhile isJsSpace).reverse

/-- JS `String.prototype.trim`. -/
def jsTrim (s : String) : String :=
  String.mk (jsTrimChars s.data)

/-- JS `a || b` on strings (the empty string is falsy). -/
def jsOr (a b : String) : String :=
  if a = "" then b else a

/-- JS `c.toUpperCase()` for one ASCII character. -/
def jsUpperChar (c : Char) : Char :=
  if 'a' ≤ c && c ≤ 'z' then Char.ofNat (c.toNat - 32) else c

/-- JS `s.toUpperCase()` (ASCII fragment). -/
def jsUpper (s : String) : String :=
  String.mk (s.data.map jsUpperChar)

/-- Does `hay` start with `needle` (character-list equality)? -/
def hasPref : List Char → List Char → Bool
  | [], _ => true
  | _ :: _, [] => false
  | a :: as, b :: bs => a = b && hasPref as bs

/-- JS `hay.includes(needle)` on character lists. -/
def hasSub (needle : List Char) : List Char → Bool
  | [] => needle.isEmpty
  | c :: rest => hasPref needle (c :: rest) || hasSub needle rest

/-- JS `hay.includes(needle)` on strings. -/
def strIncludes (needle hay : String) : Bool :=
  hasSub needle.data hay.data

/-- String version of `hasPref`: does `s` start with `p`? -/
def strHasPref (p s : String) : Bool :=
  hasPref p.data s.data

theorem hasPref_append (a b : List Char) : hasPref a (a ++ b) = true := by
  induction a with
  | nil => rfl
  | cons c cs ih => simp [hasPref, ih]

/-! ## The variable store

The engine's `variables: Record<string, string>` object.  JS object
assignment overwrites an existing key in place and appends a fresh key at
the end; plain reads return the stored value or `undefined`. -/

/-- The engine's variable store. -/
abbrev Store := List (String × String)

/-- JS `variables[key]` (`none` for `undefined`). -/
def lookupVar : Store → String → Option String
  | [], _ => none
  | (k, v) :: rest, key => if k = key then some v else lookupVar rest key

/-- JS `variables[key] = value`. -/
def setVar : Store → String → String → Store
  | [], key, value => [(key, value)]
  | (k, v) :: rest, key, value =>
    if k = key then (key, value) :: rest else (k, v) :: setVar rest key value

/-! ## Template resolver (`src/utils/template.ts`, `resolveTemplate`)

`template.replace(/\{\{\s*([\w.]+)\s*\}\}/g, ...)`: scan left to right,
at each position try to match the token pattern; on a match, substitute
the stored value, or keep the matched text verbatim when the key is
absent; on failure advance one character.  All character classes of the
pattern are pairwise disjoint and `}` belongs to none of them, so greedy
maximal munch is exact. -/

/-- Try to match `\{\{\s*([\w.]+)\s*\}\}` at the head of `l`.  On success
returns the key, the full matched text and the remaining input. -/
def tryToken : List Char → Option (String × List Char × List Char)
  | c1 :: c2 :: rest =>
    if c1 = '{' && c2 = '{' then
      let s1 := rest.takeWhile isJsSpace
      let r1 := rest.dropWhile isJsSpace
      let key := r1.takeWhile isTokenChar
      let r2 := r1.dropWhile isTokenChar
      if key.isEmpty then none
      else
        match r2.dropWhile isJsSpace with
        | d1 :: d2 :: rest2 =>
          if d1 = '}' && d2 = '}' then
            some (String.mk key,
                  '{' :: '{' :: (s1 ++ key ++ r2.takeWhile isJsSpace ++ ['}', '}']),
                  rest2)
          else none
        | _ => none
    else none
  | _ => none

theorem tryToken_length {l : List Char} {k : String} {m r : List Char}
    (h : tryToken l = some (k, m, r)) : r.length < l.length := by
  match l with
  | [] => simp [tryToken] at h
  | [c] => simp [tryToken] at h
  | c1 :: c2 :: rest =>
    simp only [tryToken] at h
    split at h
    · split at h
      · exact absurd h (by simp)
      · split at h
        · rename_i d1 d2 rest2 heq
          split at h
          · simp only [Option.some.injEq, Prod.mk.injEq] at h
            obtain ⟨-, -, hr⟩ := h
            subst hr
            have h1 := length_dropWhile_le isJsSpace rest
            have h2 := length_dropWhile_le isTokenChar (rest.dropWhile isJsSpace)
            have h3 := length_dropWhile_le isJsSpace
              ((rest.dropWhile isJsSpace).dropWhile isTokenChar)
            rw [heq] at h3
            simp only [List.length_cons] at h3 ⊢
            omega
          · exact absurd h (by simp)
        · exact absurd h (by simp)
    · exact absurd h (by simp)

/-- The global-replace scan of `resolveTemplate`, with fuel. -/
def resolveGo (vars : Store) : Nat → List Char → List Char
  | _, [] => []
  | 0, l => l
  | f + 1, c :: cs =>
    match tryToken (c :: cs) with
    | some (key, matched, rest) =>
      (match lookupVar vars key with
       | some v => v.data
       | none => matched) ++ resolveGo vars f rest
    | none => c :: resolveGo vars f cs

theorem resolveGo_fuel (vars : Store) :
    ∀ (f1 f2 : Nat) (l : List Char), l.length ≤ f1 → l.length ≤ f2 →
      resolveGo vars f1 l = resolveGo vars f2 l := by
  intro f1
  induction f1 using Nat.strong_induction_on with
  | _ f1 ih =>
    intro f2 l h1 h2
    match l, f1, f2 with
    | [], g1, g2 => cases g1 <;> cases g2 <;> rfl
    | c :: cs, 0, _ => simp at h1
    | c :: cs, _, 0 => simp at h2
    | c :: cs, fa + 1, fb + 1 =>
      simp only [resolveGo]
      cases htt : tryToken (c :: cs) with
      | some x =>
        obtain ⟨key, matched, rest⟩ := x
        have hlen := tryToken_length htt
        simp only [List.length_cons] at h1 h2 hlen
        have := ih fa (by omega) fb rest (by omega) (by omega)
        simp [this]
      | none =>
        simp only [List.length_cons] at h1 h2
        have := ih fa (by omega) fb cs (by omega) (by omega)
        simp [this]

/-- The global-replace scan of `resolveTemplate`. -/
def resolveChars (vars : Store) (l : List Char) : List Char :=
  resolveGo vars l.length l

theorem resolveChars_nil (vars : Store) : resolveChars vars [] = [] := rfl

theorem resolveChars_cons (vars : Store) (c : Char) (cs : List Char) :
    resolveChars vars (c :: cs) =
      match tryToken (c :: cs) with
      | some (key, matched, rest) =>
        (match lookupVar vars key with
         | some v => v.data
         | none => matched) ++ resolveChars vars rest
      | none => c :: resolveChars vars cs := by
  show resolveGo vars (cs.length + 1) (c :: cs) = _
  simp only [resolveGo]
  cases htt : tryToken (c :: cs) with
  | some x =>
    obtain ⟨key, matched, rest⟩ := x
    have hlen := tryToken_length htt
    simp only [List.length_cons] at hlen
    have := resolveGo_fuel vars cs.length rest.length rest (by omega) (le_refl _)
    simp [resolveChars, this]
  | none =>
    have := resolveGo_fuel vars cs.length cs.length cs (le_refl _) (le_refl _)
    simp [resolveChars]

/-- `resolveTemplate(template, variables)` from `src/utils/template.ts`. -/
def resolveTemplate (template : String) (vars : Store) : String :=
  String.mk (resolveChars vars template.data)

example : resolveTemplate "{{a}}" [("a", "x")] = "x" := by decide
example : resolveTemplate "say {{ a }}!" [("a", "x")] = "say x!" := by decide
example : resolveTemplate "{{missing}}" [("a", "x")] = "{{missing}}" := by decide
example : resolveTemplate "{{a-b}}" [("a-b", "v")] = "{{a-b}}" := by decide
example : resolveTemplate "{{{{a}}}}" [("a", "b"), ("b", "X")] = "{{b}}" := by decide

/-! ## Condition evaluator (`src/utils/template.ts`, `evaluateCondition`)

Two anchored patterns, tried in order:
1. `/^([\w.]+)\s+contains\s+"?([^"]+)"?$/i` — the `i` flag only affects
   the literal `contains` (the other classes are case-closed);
2. `/^([\w.]+)\s*==\s*(.+)$/` — JS `.` does not match `\n`/`\r`.
Any other shape evaluates to `false`; a missing path reads as `""`. -/

/-- Case-insensitive ASCII character comparison (JS regex `i` flag). -/
def ciEq (a b : Char) : Bool :=
  jsUpperChar a = jsUpperChar b

/-- Match `"?([^"]+)"?$` against `l` and return the group.

Backtracking analysis: the group cannot contain `"`, so a leading `"` can
only be consumed by the opening `"?`, a single trailing `"` only by the
closing `"?`, and any other `"` makes the whole pattern fail. -/
def quotePart (l : List Char) : Option (List Char) :=
  match l with
  | [] => none
  | c :: rest =>
    if c = '"' then
      let mid := rest.takeWhile (fun d => !(d = '"'))
      if mid.isEmpty then none
      else
        match rest.dropWhile (fun d => !(d = '"')) with
        | [] => some mid
        | ['"'] => some mid
        | _ => none
    else
      let mid := (c :: rest).takeWhile (fun d => !(d = '"'))
      match (c :: rest).dropWhile (fun d => !(d = '"')) with
      | [] => some mid
      | ['"'] => some mid
      | _ => none

/-- Strip a literal word from the head of `l`, comparing case-insensitively
(JS `i` flag); returns the remaining input. -/
def stripCI : List Char → List Char → Option (List Char)
  | [], rest => some rest
  | _ :: _, [] => none
  | a :: ws, b :: bs => if ciEq b a then stripCI ws bs else none

/-- Match `/^([\w.]+)\s+contains\s+"?([^"]+)"?$/i`, returning path and text. -/
def containsParse (l : List Char) : Option (String × String) :=
  let path := l.takeWhile isTokenChar
  let r1 := l.dropWhile isTokenChar
  if path.isEmpty then none
  else if (r1.takeWhile isJsSpace).isEmpty then none
  else
    match stripCI "contains".data (r1.dropWhile isJsSpace) with
    | some r3 =>
      if (r3.takeWhile isJsSpace).isEmpty then none
      else
        match quotePart (r3.dropWhile isJsSpace) with
        | some kw => some (String.mk path, String.mk kw)
        | none =>
          -- Backtracking of the second `\s+`: when the group cannot match the
          -- whitespace-free tail `t` (only possible with `t` empty or a lone
          -- `"`), the greedy `\s+` hands its last whitespace character back to
          -- `[^"]+` — legal only if at least one whitespace character remains,
          -- i.e. the whitespace run `w` has length ≥ 2.  The group then
          -- captures exactly that one whitespace character (for `t = ["]`
          -- the closing `"?` consumes the quote).  Handing back more
          -- characters is never tried first (greediness) and never needed.
          let w := r3.takeWhile isJsSpace
          let t := r3.dropWhile isJsSpace
          if decide (2 ≤ w.length) && (t.isEmpty || t == ['"']) then
            match w.getLast? with
            | some c => some (String.mk path, String.mk [c])
            | none => none
          else none
    | none => none

/-- Match `/^([\w.]+)\s*==\s*(.+)$/`, returning path and text.

Backtracking analysis for the `\s*(.+)$` tail on the residue `r3`: with
`t0 := r3.dropWhile isJsSpace`, if `t0` is nonempty the match succeeds
with group `t0` exactly when `t0` contains no `\n`/`\r` (a shorter `\s*`
only prepends whitespace, which never removes an offending newline); if
`t0` is empty, `r3` is all whitespace and the greedy engine yields the
one-character group consisting of `r3`'s last character, provided it is
not a newline. -/
def equalsParse (l : List Char) : Option (String × String) :=
  let path := l.takeWhile isTokenChar
  let r1 := l.dropWhile isTokenChar
  if path.isEmpty then none
  else
    match r1.dropWhile isJsSpace with
    | '=' :: '=' :: r3 =>
      let t0 := r3.dropWhile isJsSpace
      if t0.isEmpty then
        match r3.getLast? with
        | some c =>
          if c = '\n' || c = '\r' then none
          else some (String.mk path, String.mk [c])
        | none => none
      else
        if t0.any (fun c => c = '\n' || c = '\r') then none
        else some (String.mk path, String.mk t0)
    | _ => none

/-- `evaluateCondition(condition, variables)` from `src/utils/template.ts`. -/
def evaluateCondition (cond : String) (vars : Store) : Bool :=
  match containsParse cond.data with
  | some (path, kw) =>
    strIncludes (jsUpper kw) (jsUpper ((lookupVar vars path).getD ""))
  | none =>
    match equalsParse cond.data with
    | some (path, kw) =>
      jsTrim ((lookupVar vars path).getD "") == jsTrim kw
    | none => false

example :
    evaluateCondition "steps.audit.output contains APPROVED"
      [("steps.audit.output", "verdict: Approved.")] = true := by decide
example :
    evaluateCondition "steps.audit.output contains \"APPROVED\""
      [("steps.audit.output", "verdict: Approved.")] = true := by decide
example :
    evaluateCondition "steps.build.exitCode == 0"
      [("steps.build.exitCode", "0")] = true := by decide
example : evaluateCondition "a == b" [] = false := by decide
example : evaluateCondition "a ==  " [] = true := by decide
example : evaluateCondition "no such shape" [] = false := by decide
example : evaluateCondition "x CONTAINS y" [("x", "ab Y cd")] = true := by decide
example : evaluateCondition "a contains   " [("a", "x y")] = true := by decide
example : evaluateCondition "a contains " [("a", "x y")] = false := by decide
example : evaluateCondition "a contains  \"" [("a", "x y")] = true := by decide
example : evaluateCondition "a contains \"" [("a", "x y")] = false := by decide

/-! ## Workflow data model (`src/core/schema.ts`) -/

/-- `LoopSchema`: loop block of a step. -/
structure LoopConfig where
  untilCond : String
  max : Nat
  onMax : String
deriving Repr, DecidableEq

/-- `StepSchema`: one workflow step (the fields the engine consumes). -/
structure StepConfig where
  name : String
  agent : Option String := none
  prompt : Option String := none
  shellRun : Option String := none
  parallel : Bool := false
  loop : Option LoopConfig := none
deriving Repr, DecidableEq

/-- `AgentSchema`: the fields the engine and adapters consume. -/
structure AgentConfig where
  cli : String
  command : Option String := none
  timeout : Option Nat := none
deriving Repr, DecidableEq

/-- `WorkflowSchema`: agents map and ordered step list. -/
structure WorkflowConfig where
  name : String
  agents : List (String × AgentConfig)
  steps : List StepConfig
deriving Repr, DecidableEq

/-- The derived `StepGroup` of `engine.ts`. -/
structure StepGroup where
  parallel : Bool
  steps : List StepConfig
  startIndex : Nat
deriving Repr, DecidableEq

/-! ## Step grouper (`engine.ts`, `groupSteps`)

The `while` loop of `groupSteps`: a parallel-flagged step opens a batch
that absorbs the following consecutive parallel-flagged steps; any other
step becomes a singleton group; `startIndex` tracks the position of the
group's first member. -/

/-- The grouping loop, with fuel. -/
def groupGo : Nat → Nat → List StepConfig → List StepGroup
  | _, _, [] => []
  | 0, _, _ => []
  | f + 1, i, s :: rest =>
    if s.parallel then
      ⟨true, s :: rest.takeWhile (fun t => t.parallel), i⟩ ::
        groupGo f (i + ((rest.takeWhile (fun t => t.parallel)).length + 1))
          (rest.dropWhile (fun t => t.parallel))
    else
      ⟨false, [s], i⟩ :: groupGo f (i + 1) rest

theorem groupGo_fuel :
    ∀ (f1 f2 i : Nat) (l : List StepConfig), l.length ≤ f1 → l.length ≤ f2 →
      groupGo f1 i l = groupGo f2 i l := by
  intro f1
  induction f1 using Nat.strong_induction_on with
  | _ f1 ih =>
    intro f2 i l h1 h2
    match l, f1, f2 with
    | [], g1, g2 => cases g1 <;> cases g2 <;> rfl
    | s :: rest, 0, _ => simp at h1
    | s :: rest, _, 0 => simp at h2
    | s :: rest, fa + 1, fb + 1 =>
      simp only [groupGo]
      by_cases hp : s.parallel
      · have hlen : (rest.dropWhile (fun t => t.parallel)).length ≤ rest.length :=
          length_dropWhile_le _ _
        simp only [List.length_cons] at h1 h2
        have := ih fa (by omega) fb
          (i + ((rest.takeWhile (fun t => t.parallel)).length + 1))
          (rest.dropWhile (fun t => t.parallel)) (by omega) (by omega)
        simp [hp, this]
      · simp only [List.length_cons] at h1 h2
        have := ih fa (by omega) fb (i + 1) rest (by omega) (by omega)
        simp [hp, this]

/-- `groupSteps(steps)` from `engine.ts`. -/
def groupSteps (steps : List StepConfig) : List StepGroup :=
  groupGo steps.length 0 steps

theorem groupGo_nil (i : Nat) (f : Nat) : groupGo f i [] = [] := by
  cases f <;> rfl

/-! ## Loop re-entry (`engine.ts`, lines 247–261)

`loopConfig.until.match(/^steps\.([\w\-.]+)\./)`: after the literal
`steps.`, the greedy group `[\w\-.]+` scans the maximal run `R` of
`[\w\-.]` characters; the following literal `\.` then forces backtracking
to the longest nonempty group that is immediately followed by `.` — i.e.
the part of `R` before its last dot (no match if `R` has no dot, or only
a dot at position 0). -/

/-- Cut a character run before its last `.`; `none` when no dot exists. -/
def cutAtLastDot : List Char → Option (List Char)
  | [] => none
  | c :: cs =>
    match cutAtLastDot cs with
    | some t => some (c :: t)
    | none => if c = '.' then some [] else none

/-- The step name captured by `/^steps\.([\w\-.]+)\./`, if any. -/
def parseLoopRef (cond : String) : Option String :=
  if strHasPref "steps." cond then
    match cutAtLastDot ((cond.data.drop 6).takeWhile isRefChar) with
    | some [] => none
    | some name => some (String.mk name)
    | none => none
  else none

/-- JS `Array.prototype.findIndex`, as an `Option`-valued index. -/
def findIndexFrom (p : α → Bool) : List α → Nat → Option Nat
  | [], _ => none
  | x :: xs, i => if p x then some i else findIndexFrom p xs (i + 1)

/-- JS `findIndex` (with `-1` rendered as `none`). -/
def findIndex (p : α → Bool) (l : List α) : Option Nat :=
  findIndexFrom p l 0

/-- Does group `g` contain the step at flat index `i`? -/
def groupContains (g : StepGroup) (i : Nat) : Bool :=
  g.startIndex ≤ i && i < g.startIndex + g.steps.length

/-- The owning-group lookup of the re-entry computation: the group whose
member range covers `refIndex`, with the bare index as fallback
(`owningGroup?.startIndex ?? refIndex`). -/
def reEntryFromIndex (steps : List StepConfig) (refIndex : Nat) : Nat :=
  match (groupSteps steps).find? (fun g => groupContains g refIndex) with
  | some g => g.startIndex
  | none => refIndex

/-- Re-entry for a parsed reference name: position of the named step, or 0
when the name is unknown (`refIndex >= 0` guard). -/
def reEntryFromName (steps : List StepConfig) (refName : String) : Nat :=
  match findIndex (fun s => s.name == refName) steps with
  | none => 0
  | some refIndex => reEntryFromIndex steps refIndex

/-- The re-entry computation of `engine.ts` (lines 247–261). -/
def computeReEntryIndex (steps : List StepConfig) (cond : String) : Nat :=
  match parseLoopRef cond with
  | none => 0
  | some refName => reEntryFromName steps refName

/-- The skip test of `engine.ts` line 267. -/
def shouldSkip (iteration reEntry : Nat) (g : StepGroup) : Bool :=
  decide (1 < iteration) && decide (0 < reEntry) && decide (g.startIndex < reEntry)

section GroupExamples

/-- A small five-step workflow used by concrete checks: one sequential
step, a parallel batch of three, one sequential loop step. -/
def demoSteps : List StepConfig :=
  [⟨"build", none, none, some "make", false, none⟩,
   ⟨"a1", some "dev", some "p1", none, true, none⟩,
   ⟨"a2", some "dev", some "p2", none, true, none⟩,
   ⟨"a3", some "dev", some "p3", none, true, none⟩,
   ⟨"audit", some "rev", some "check it", none, false,
     some ⟨"steps.a2.output contains OK", 3, "fail"⟩⟩]

example :
    groupSteps demoSteps =
      [⟨false, [demoSteps.get ⟨0, by decide⟩], 0⟩,
       ⟨true, [demoSteps.get ⟨1, by decide⟩, demoSteps.get ⟨2, by decide⟩,
               demoSteps.get ⟨3, by decide⟩], 1⟩,
       ⟨false, [demoSteps.get ⟨4, by decide⟩], 4⟩] := by decide

example : parseLoopRef "steps.a2.output contains OK" = some "a2" := by decide
example : parseLoopRef "steps.my-step.v2.output == done" = some "my-step.v2" := by
  decide
example : parseLoopRef "steps.audit contains OK" = none := by decide
example : parseLoopRef "done contains OK" = none := by decide
example : computeReEntryIndex demoSteps "steps.a2.output contains OK" = 1 := by
  decide
example : computeReEntryIndex demoSteps "steps.audit.output contains OK" = 4 := by
  decide
example : computeReEntryIndex demoSteps "steps.ghost.output contains OK" = 0 := by
  decide
example : computeReEntryIndex demoSteps "whatever" = 0 := by decide

end GroupExamples

/-! ## The execution engine (`engine.ts`, `run`)

External subprocesses are abstracted by a `Behavior` oracle mapping the
step name, the iteration number and the fully resolved input text to a
`StepResult`.  The agent context block (file contents, `git:diff`) is
external input appended to the prompt before resolution; it is not part
of the claims and is taken to be empty here.  Worktree snapshot commits
are recorded as the list of commit messages the engine requests
(`snapshotCommit` itself only commits when the tree changed, which the
claims do not depend on). -/

/-- The result shape shared by agents and shell steps. -/
structure StepResult where
  output : String
  exitCode : Int
  timedOut : Bool := false
deriving Repr, DecidableEq

/-- Oracle for one subprocess invocation: step name, iteration, resolved
input. -/
def Behavior := String → Nat → String → StepResult

/-- One entry of the engine's `records` array. -/
structure StepRecord where
  step : String
  iteration : Nat
  output : String
  exitCode : Int
deriving Repr, DecidableEq

/-- The engine's mutable run state. -/
structure EngState where
  vars : Store
  records : List StepRecord
  approved : Bool
  commits : List String
deriving Repr, DecidableEq

/-- The template the engine resolves for a step: `step.run` for shell
steps, `step.prompt` for agent steps. -/
def inputTemplate (s : StepConfig) : String :=
  match s.shellRun with
  | some cmd => cmd
  | none => s.prompt.getD ""

/-- Key `steps.<name>.output`. -/
def outKey (name : String) : String := "steps." ++ name ++ ".output"

/-- Key `steps.<name>.exitCode`. -/
def exitKey (name : String) : String := "steps." ++ name ++ ".exitCode"

/-- The two store writes every completed step performs. -/
def setStepVars (vars : Store) (name : String) (r : StepResult) : Store :=
  setVar (setVar vars (outKey name) r.output) (exitKey name) (toString r.exitCode)

/-- Sequential branch of the group loop (`engine.ts` lines 326–380). -/
def runSeqStep (wt : Bool) (b : Behavior) (iter : Nat) (s : StepConfig)
    (st : EngState) : EngState :=
  let r := b s.name iter (resolveTemplate (inputTemplate s) st.vars)
  let vars1 := setStepVars st.vars s.name r
  let commits1 := if wt then st.commits ++ [s.name] else st.commits
  let recs1 := st.records ++ [⟨s.name, iter, r.output, r.exitCode⟩]
  let approved1 :=
    match s.loop with
    | some lc => st.approved || evaluateCondition lc.untilCond vars1
    | none => st.approved
  ⟨vars1, recs1, approved1, commits1⟩

/-- Parallel branch of the group loop (`engine.ts` lines 274–325): all
inputs are resolved against the state at group start, all results are
collected, then the store, records and the single combined commit are
applied. -/
def runParallelGroup (wt : Bool) (b : Behavior) (iter : Nat)
    (members : List StepConfig) (st : EngState) : EngState :=
  let results :=
    members.map (fun m => (m, b m.name iter (resolveTemplate (inputTemplate m) st.vars)))
  let vars1 := results.foldl (fun v mr => setStepVars v mr.1.name mr.2) st.vars
  let recs1 := st.records ++ results.map (fun mr => ⟨mr.1.name, iter, mr.2.output, mr.2.exitCode⟩)
  let commits1 :=
    if wt then st.commits ++ [String.intercalate " + " (members.map (fun m => m.name))]
    else st.commits
  ⟨vars1, recs1, st.approved, commits1⟩

/-- Dispatch on a group: the parallel branch runs only for parallel groups
with at least two members; every other group (including a parallel
singleton) takes the sequential branch on its first member. -/
def execGroup (wt : Bool) (b : Behavior) (iter : Nat) (g : StepGroup)
    (st : EngState) : EngState :=
  if g.parallel && decide (1 < g.steps.length) then
    runParallelGroup wt b iter g.steps st
  else
    match g.steps with
    | s :: _ => runSeqStep wt b iter s st
    | [] => st

/-- One group of one iteration: approval stops the iteration, the re-entry
skip test suppresses pre-re-entry groups on iterations after the first. -/
def stepGroupFold (wt : Bool) (b : Behavior) (reEntry iter : Nat)
    (st : EngState) (g : StepGroup) : EngState :=
  if st.approved then st
  else if shouldSkip iter reEntry g then st
  else execGroup wt b iter g st

/-- One full iteration over the groups. -/
def runIteration (wt : Bool) (b : Behavior) (reEntry : Nat)
    (groups : List StepGroup) (iter : Nat) (st : EngState) : EngState :=
  groups.foldl (stepGroupFold wt b reEntry iter) st

/-- `config.steps.findIndex((s) => s.loop)` and the loop config it picks. -/
def loopConfigOf (steps : List StepConfig) : Option LoopConfig :=
  match findIndex (fun s => s.loop.isSome) steps with
  | some i => (steps.get? i).bind (fun s => s.loop)
  | none => none

/-- `maxIterations = loopConfig?.max ?? 1`. -/
def engineMaxIter (steps : List StepConfig) : Nat :=
  match loopConfigOf steps with
  | some lc => lc.max
  | none => 1

/-- The engine's re-entry index (0 when no loop is declared). -/
def engineReEntry (steps : List StepConfig) : Nat :=
  match loopConfigOf steps with
  | some lc => computeReEntryIndex steps lc.untilCond
  | none => 0

/-- The state before the first group: the store is seeded with the
initiating input text under `feature_spec`. -/
def initState (featureSpec : String) : EngState :=
  ⟨[("feature_spec", featureSpec)], [], false, []⟩

/-- The iteration loop of `run` (`engine.ts` lines 263–386). -/
def runEngine (wt : Bool) (b : Behavior) (steps : List StepConfig)
    (featureSpec : String) : EngState :=
  (List.range' 1 (engineMaxIter steps)).foldl
    (fun st it =>
      if st.approved then st
      else runIteration wt b (engineReEntry steps) (groupSteps steps) it st)
    (initState featureSpec)

/-! ## Prerequisite check (`adapters/index.ts` and `engine.ts` lines 162–180)

`checkAdapters` probes each used CLI through its adapter's `isAvailable`;
a missing adapter or a failed probe puts the CLI on the `missing` list and
a nonempty `missing` list aborts the run before any step executes.  The
probe outcome of the real tools is an oracle `avail`; `CustomAdapter`
(registered for both `custom` and `aider`) always reports available. -/

/-- Lookup in the workflow's agents map. -/
def lookupAgent : List (String × AgentConfig) → String → Option AgentConfig
  | [], _ => none
  | (k, v) :: rest, key => if k = key then some v else lookupAgent rest key

/-- `adapter && await adapter.isAvailable()` for one CLI selector. -/
def probeCli (avail : String → Bool) (cli : String) : Bool :=
  if cli = "custom" || cli = "aider" then true
  else if cli = "claude-code" || cli = "codex" || cli = "gemini" then avail cli
  else false

/-- Order-preserving deduplication (JS `Set` insertion semantics). -/
def dedupFirst (seen : List String) : List String → List String
  | [] => []
  | x :: xs =>
    if seen.contains x then dedupFirst seen xs
    else x :: dedupFirst (x :: seen) xs

/-- The deduplicated CLIs of agents referenced by steps (`engine.ts`
lines 163–170); unknown agent references are dropped by the optional
chaining. -/
def usedClis (cfg : WorkflowConfig) : List String :=
  dedupFirst []
    (cfg.steps.filterMap
      (fun s => s.agent.bind (fun k => (lookupAgent cfg.agents k).map (fun a => a.cli))))

/-- The `missing` list of `checkAdapters`. -/
def missingClis (avail : String → Bool) (cfg : WorkflowConfig) : List String :=
  (usedClis cfg).filter (fun c => !(probeCli avail c))

/-- `run` up to and including the prerequisite gate: a nonempty `missing`
list exits the process before any step executes. -/
def runWorkflow (avail : String → Bool) (wt : Bool) (b : Behavior)
    (cfg : WorkflowConfig) (featureSpec : String) : Except (List String) EngState :=
  if (missingClis avail cfg).isEmpty then
    Except.ok (runEngine wt b cfg.steps featureSpec)
  else
    Except.error (missingClis avail cfg)

/-! ## Adapter result mappings (`src/adapters/*.ts` and the shell branch)

Each `execute` runs `execa(..., { timeout, reject: false })` and maps the
settled process outcome to a result; `ProcOutcome` abstracts that settled
outcome (on a timeout kill, `execa` reports `timedOut: true` and no exit
code).  The JSON post-processing of the claude-code adapter's non-timeout
branch is abstracted as `postJson`. -/

/-- The settled outcome of an `execa(..., { reject: false })` call. -/
structure ProcOutcome where
  timedOut : Bool
  stdout : String
  stderr : String
  exitCode : Option Int
deriving Repr, DecidableEq

/-- `ClaudeCodeAdapter.execute` result mapping (`claude-code.ts`). -/
def claudeResult (timeout : Option Nat) (postJson : String → String)
    (p : ProcOutcome) : StepResult :=
  if p.timedOut then
    ⟨"[TIMED OUT] Claude Code exceeded the " ++ toString (timeout.getD 10) ++
       " minute timeout.\n" ++ jsOr p.stdout (jsOr p.stderr ""), 1, true⟩
  else
    ⟨postJson (jsOr p.stdout (jsOr p.stderr "")), p.exitCode.getD 1, false⟩

/-- `CodexAdapter.execute` result mapping (`codex.ts`). -/
def codexResult (timeout : Option Nat) (p : ProcOutcome) : StepResult :=
  if p.timedOut then
    ⟨"[TIMED OUT] Codex exceeded the " ++ toString (timeout.getD 10) ++
       " minute timeout.\n" ++ jsOr p.stdout (jsOr p.stderr ""), 1, true⟩
  else
    ⟨jsOr p.stdout (jsOr p.stderr ""), p.exitCode.getD 1, false⟩

/-- `GeminiAdapter.execute` result mapping (`gemini.ts`). -/
def geminiResult (timeout : Option Nat) (p : ProcOutcome) : StepResult :=
  if p.timedOut then
    ⟨"[TIMED OUT] Gemini CLI exceeded the " ++ toString (timeout.getD 10) ++
       " minute timeout.\n" ++ jsOr p.stdout (jsOr p.stderr ""), 1, true⟩
  else
    ⟨jsOr p.stdout (jsOr p.stderr ""), p.exitCode.getD 1, false⟩

/-- `[proc.stdout, proc.stderr].filter(Boolean).join("\n")`. -/
def shellJoin (a b : String) : String :=
  if a = "" then b else if b = "" then a else a ++ "\n" ++ b

/-- The shell-step result mapping (`engine.ts` lines 75–108). -/
def shellResult (p : ProcOutcome) : StepResult :=
  if p.timedOut then
    ⟨"[TIMED OUT] Shell command exceeded the 10 minute timeout.\n" ++
       shellJoin p.stdout p.stderr, 1, true⟩
  else
    ⟨shellJoin p.stdout p.stderr, p.exitCode.getD 1, false⟩

/-- `CustomAdapter.execute` result mapping (`custom.ts`): the settled
outcome is read without consulting `timedOut`. -/
def customResult (command : Option String) (p : ProcOutcome) : StepResult :=
  match command with
  | none =>
    ⟨"Custom agent requires a \"command\" field in config, e.g.: command: \"aider --yes-always --message {{prompt}}\"",
     1, false⟩
  | some _ => ⟨jsOr p.stdout p.stderr, p.exitCode.getD 1, false⟩

section EngineExamples

example :
    (shellResult ⟨true, "partial", "", none⟩).output =
      "[TIMED OUT] Shell command exceeded the 10 minute timeout.\npartial" := by
  decide
example : (customResult (some "aider -m {{prompt}}") ⟨true, "", "", none⟩).timedOut
    = false := by decide
example : (claudeResult none id ⟨true, "", "oops", none⟩).exitCode = 1 := by decide

/-- A one-step looping workflow whose condition never holds. -/
def loopDemo : List StepConfig :=
  [⟨"s", none, none, some "make", false,
    some ⟨"steps.s.output contains NEVER", 2, "fail"⟩⟩]

/-- A behavior oracle returning a fixed success result. -/
def constBehavior : Behavior := fun _ _ _ => ⟨"done", 0, false⟩

example : (runEngine false constBehavior loopDemo "spec").records.length = 2 := by
  decide
example : (runEngine false constBehavior loopDemo "spec").vars =
    [("feature_spec", "spec"), ("steps.s.output", "done"),
     ("steps.s.exitCode", "0")] := by decide

end EngineExamples

/-! ## Scanning lemmas -/

theorem takeWhile_append_all {p : α → Bool} {a : List α} (b : List α)
    (h : ∀ c ∈ a, p c = true) :
    (a ++ b).takeWhile p = a ++ b.takeWhile p := by
  induction a with
  | nil => simp
  | cons x xs ih =>
    have hx : p x = true := h x (by simp)
    simp only [List.cons_append, List.takeWhile_cons, hx, if_true]
    rw [ih (fun c hc => h c (by simp [hc]))]

theorem dropWhile_append_all {p : α → Bool} {a : List α} (b : List α)
    (h : ∀ c ∈ a, p c = true) :
    (a ++ b).dropWhile p = b.dropWhile p := by
  induction a with
  | nil => simp
  | cons x xs ih =>
    have hx : p x = true := h x (by simp)
    simp only [List.cons_append, List.dropWhile_cons, hx, if_true]
    exact ih (fun c hc => h c (by simp [hc]))

theorem takeWhile_eq_self {p : α → Bool} {l : List α} (h : ∀ c ∈ l, p c = true) :
    l.takeWhile p = l := by
  have := takeWhile_append_all (p := p) (a := l) [] h
  simpa using this

theorem dropWhile_eq_nil {p : α → Bool} {l : List α} (h : ∀ c ∈ l, p c = true) :
    l.dropWhile p = [] := by
  have := dropWhile_append_all (p := p) (a := l) [] h
  simpa using this

theorem takeWhile_append_stop {p : α → Bool} {a : List α} {x : α} (b : List α)
    (h : ∀ c ∈ a, p c = true) (hx : p x = false) :
    (a ++ x :: b).takeWhile p = a ∧ (a ++ x :: b).dropWhile p = x :: b := by
  constructor
  · rw [takeWhile_append_all _ h, List.takeWhile_cons_of_neg (by simp [hx])]
    simp
  · rw [dropWhile_append_all _ h, List.dropWhile_cons_of_neg (by simp [hx])]

theorem dropWhile_head_neg {p : α → Bool} {l : List α} {x : α} {xs : List α}
    (h : l.dropWhile p = x :: xs) : p x = false := by
  induction l with
  | nil => simp at h
  | cons y ys ih =>
    by_cases hy : p y
    · rw [List.dropWhile_cons_of_pos hy] at h
      exact ih h
    · rw [List.dropWhile_cons_of_neg hy] at h
      cases h
      simpa using hy

/-! ## Store lemmas -/

theorem lookup_setVar_self (v : Store) (k val : String) :
    lookupVar (setVar v k val) k = some val := by
  induction v with
  | nil => simp [setVar, lookupVar]
  | cons kv rest ih =>
    obtain ⟨k0, v0⟩ := kv
    by_cases hk : k0 = k
    · simp [setVar, hk, lookupVar]
    · simp [setVar, hk, lookupVar, ih]

theorem lookup_setVar_ne (v : Store) {k k2 : String} (val : String) (h : k2 ≠ k) :
    lookupVar (setVar v k val) k2 = lookupVar v k2 := by
  induction v with
  | nil =>
    simp only [setVar, lookupVar]
    rw [if_neg (fun hh => h hh.symm)]
  | cons kv rest ih =>
    obtain ⟨k0, v0⟩ := kv
    by_cases hk : k0 = k
    · subst hk
      simp only [setVar, if_pos rfl, lookupVar]
      rw [if_neg (fun hh => h hh.symm), if_neg (fun hh => h hh.symm)]
    · simp only [setVar, if_neg hk, lookupVar]
      by_cases h0 : k0 = k2
      · rw [if_pos h0, if_pos h0]
      · rw [if_neg h0, if_neg h0]
        exact ih

theorem isSome_lookup_setVar (v : Store) (k k2 val : String)
    (h : (lookupVar v k2).isSome) : (lookupVar (setVar v k val) k2).isSome := by
  by_cases hk : k2 = k
  · subst hk; simp [lookup_setVar_self]
  · rw [lookup_setVar_ne v val hk]; exact h

theorem length_setVar_present (v : Store) (k val : String)
    (h : (lookupVar v k).isSome) : (setVar v k val).length = v.length := by
  induction v with
  | nil => simp [lookupVar] at h
  | cons kv rest ih =>
    obtain ⟨k0, v0⟩ := kv
    by_cases hk : k0 = k
    · simp [setVar, hk]
    · simp only [lookupVar, hk, if_false] at h
      simp [setVar, hk, ih h]

theorem length_setVar_new (v : Store) (k val : String)
    (h : lookupVar v k = none) : (setVar v k val).length = v.length + 1 := by
  induction v with
  | nil => simp [setVar]
  | cons kv rest ih =>
    obtain ⟨k0, v0⟩ := kv
    by_cases hk : k0 = k
    · simp [lookupVar, hk] at h
    · simp only [lookupVar, hk, if_false] at h
      simp [setVar, hk, ih h]

/-! ## Store-key lemmas: the two keys of a step are distinct across steps -/

theorem string_append_inj {a b : String} (pre post : String)
    (h : pre ++ a ++ post = pre ++ b ++ post) : a = b := by
  have hd : (pre ++ a ++ post).data = (pre ++ b ++ post).data := by rw [h]
  simp only [String.data_append] at hd
  have h1 : pre.data ++ a.data = pre.data ++ b.data := List.append_cancel_right hd
  have h2 : a.data = b.data := List.append_cancel_left h1
  cases a; cases b
  exact congrArg String.mk h2

theorem outKey_inj {a b : String} (h : outKey a = outKey b) : a = b :=
  string_append_inj "steps." ".output" h

theorem exitKey_inj {a b : String} (h : exitKey a = exitKey b) : a = b :=
  string_append_inj "steps." ".exitCode" h

theorem outKey_ne_exitKey (a b : String) : outKey a ≠ exitKey b := by
  intro h
  have hd : (outKey a).data = (exitKey b).data := by rw [h]
  simp only [outKey, exitKey, String.data_append] at hd
  rw [List.append_assoc, List.append_assoc] at hd
  have h1 : a.data ++ ".output".data = b.data ++ ".exitCode".data :=
    List.append_cancel_left hd
  have h2 := congrArg List.getLast? h1
  rw [List.getLast?_append, List.getLast?_append] at h2
  have ho : (".output".data).getLast? = some 't' := by decide
  have he : (".exitCode".data).getLast? = some 'e' := by decide
  rw [ho, he] at h2
  simp only [Option.or_some, Option.some.injEq] at h2
  exact absurd h2 (by decide)

/-! ## Batched store updates -/

/-- Apply a list of key/value writes in order. -/
def applyPairs (v : Store) (ups : List (String × String)) : Store :=
  ups.foldl (fun v kv => setVar v kv.1 kv.2) v

theorem applyPairs_nil (v : Store) : applyPairs v [] = v := rfl

theorem applyPairs_cons (v : Store) (u : String × String) (ups : List (String × String)) :
    applyPairs v (u :: ups) = applyPairs (setVar v u.1 u.2) ups := rfl

theorem applyPairs_append (v : Store) (u1 u2 : List (String × String)) :
    applyPairs v (u1 ++ u2) = applyPairs (applyPairs v u1) u2 := by
  simp [applyPairs, List.foldl_append]

theorem lookup_applyPairs_notmem (v : Store) (ups : List (String × String))
    (k : String) (h : ∀ u ∈ ups, u.1 ≠ k) :
    lookupVar (applyPairs v ups) k = lookupVar v k := by
  induction ups generalizing v with
  | nil => rfl
  | cons u rest ih =>
    rw [applyPairs_cons]
    rw [ih (setVar v u.1 u.2) (fun w hw => h w (List.mem_cons_of_mem _ hw))]
    exact lookup_setVar_ne v u.2 (Ne.symm (h u (List.mem_cons_self _ _)))

theorem isSome_lookup_applyPairs (v : Store) (ups : List (String × String))
    (k : String) (h : (lookupVar v k).isSome) :
    (lookupVar (applyPairs v ups) k).isSome := by
  induction ups generalizing v with
  | nil => exact h
  | cons u rest ih =>
    rw [applyPairs_cons]
    exact ih _ (isSome_lookup_setVar v u.1 k u.2 h)

theorem lookup_applyPairs_mid (v : Store) (u1 u2 : List (String × String))
    (k val : String) (h : ∀ u ∈ u2, u.1 ≠ k) :
    lookupVar (applyPairs v (u1 ++ (k, val) :: u2)) k = some val := by
  rw [applyPairs_append, applyPairs_cons, lookup_applyPairs_notmem _ _ _ h]
  exact lookup_setVar_self _ _ _

/-- A generic preservation principle for the engine's left folds. -/
theorem foldl_preserve {P : β → Prop} (f : β → α → β)
    (h : ∀ b a, P b → P (f b a)) : ∀ (l : List α) (b : β), P b → P (l.foldl f b)
  | [], _, hb => hb
  | a :: l, b, hb => foldl_preserve f h l (f b a) (h b a hb)

/-- The two writes of one completed step, as a pair list. -/
def stepPairs (name : String) (r : StepResult) : List (String × String) :=
  [(outKey name, r.output), (exitKey name, toString r.exitCode)]

theorem setStepVars_eq_applyPairs (v : Store) (name : String) (r : StepResult) :
    setStepVars v name r = applyPairs v (stepPairs name r) := rfl

theorem lookup_setStepVars (v : Store) (name : String) (r : StepResult) (k : String) :
    lookupVar (setStepVars v name r) k =
      if k = exitKey name then some (toString r.exitCode)
      else if k = outKey name then some r.output
      else lookupVar v k := by
  by_cases h1 : k = exitKey name
  · subst h1
    simp only [setStepVars, if_pos rfl]
    exact lookup_setVar_self _ _ _
  · rw [if_neg h1]
    by_cases h2 : k = outKey name
    · subst h2
      simp only [setStepVars, if_pos rfl]
      rw [lookup_setVar_ne _ _ h1]
      exact lookup_setVar_self _ _ _
    · rw [if_neg h2]
      simp only [setStepVars]
      rw [lookup_setVar_ne _ _ h1, lookup_setVar_ne _ _ h2]

/-- The parallel store fold is the batched application of all members'
pairs in order. -/
theorem parallel_fold_eq_applyPairs (v : Store)
    (results : List (StepConfig × StepResult)) :
    results.foldl (fun v mr => setStepVars v mr.1.name mr.2) v =
      applyPairs v (results.flatMap (fun mr => stepPairs mr.1.name mr.2)) := by
  induction results generalizing v with
  | nil => rfl
  | cons mr rest ih =>
    simp only [List.foldl_cons, List.flatMap_cons]
    rw [ih, setStepVars_eq_applyPairs, ← applyPairs_append]

theorem isSome_lookup_setStepVars (v : Store) (name : String) (r : StepResult)
    (k : String) (h : (lookupVar v k).isSome) :
    (lookupVar (setStepVars v name r) k).isSome := by
  rw [lookup_setStepVars]
  by_cases h1 : k = exitKey name
  · rw [if_pos h1]
    rfl
  · rw [if_neg h1]
    by_cases h2 : k = outKey name
    · rw [if_pos h2]
      rfl
    · rw [if_neg h2]
      exact h

/-! ## Grouping lemmas -/

/-- Each group starts exactly where the previous groups' members end. -/
def startsOk : Nat → List StepGroup → Prop
  | _, [] => True
  | i, g :: gs => g.startIndex = i ∧ startsOk (i + g.steps.length) gs

/-- Master invariant of the grouping loop: flattening reproduces the
input, parallel groups are nonempty with all members parallel-flagged,
non-parallel groups are non-parallel singletons, start indices are the
running member count, the first group inherits the first step's flag, and
no two adjacent groups are both parallel. -/
theorem groupGo_master :
    ∀ (f i : Nat) (l : List StepConfig), l.length ≤ f →
      ((groupGo f i l).flatMap (fun g => g.steps) = l)
      ∧ (∀ g ∈ groupGo f i l,
          (g.parallel = true → g.steps ≠ [] ∧ ∀ s ∈ g.steps, s.parallel = true)
          ∧ (g.parallel = false → ∃ s, g.steps = [s] ∧ s.parallel = false))
      ∧ startsOk i (groupGo f i l)
      ∧ (∀ g gs2, groupGo f i l = g :: gs2 →
          ∃ s ls, l = s :: ls ∧ g.parallel = s.parallel)
      ∧ List.Chain' (fun a b => ¬(a.parallel = true ∧ b.parallel = true))
          (groupGo f i l) := by
  intro f
  induction f using Nat.strong_induction_on with
  | _ f ih =>
    intro i l hf
    match l, f with
    | [], g1 =>
      rw [groupGo_nil]
      exact ⟨rfl, by simp, trivial, by simp, List.chain'_nil⟩
    | s :: rest, 0 => simp at hf
    | s :: rest, fa + 1 =>
      simp only [List.length_cons] at hf
      by_cases hp : s.parallel
      · have hdw : (rest.dropWhile (fun t => t.parallel)).length ≤ fa := by
          have := length_dropWhile_le (fun t : StepConfig => t.parallel) rest
          omega
        obtain ⟨iha, ihb, ihc, ihd, ihe⟩ :=
          ih fa (Nat.lt_succ_self fa)
            (i + ((rest.takeWhile (fun t => t.parallel)).length + 1))
            (rest.dropWhile (fun t => t.parallel)) hdw
        simp only [groupGo, hp, if_true]
        refine ⟨?_, ?_, ?_, ?_, ?_⟩
        · simp only [List.flatMap_cons, iha]
          simp [List.takeWhile_append_dropWhile]
        · intro g hg
          rcases List.mem_cons.mp hg with hg | hg
          · subst hg
            refine ⟨fun _ => ⟨by simp, ?_⟩, fun hfalse => by simp at hfalse⟩
            intro t ht
            rcases List.mem_cons.mp ht with ht | ht
            · subst ht; exact hp
            · exact List.mem_takeWhile_imp ht
          · exact ihb g hg
        · exact ⟨rfl, ihc⟩
        · intro g gs2 heq
          injection heq with h1 h2
          subst h1
          exact ⟨s, rest, rfl, hp.symm⟩
        · refine List.chain'_cons'.mpr ⟨?_, ihe⟩
          intro y hy
          cases hG : groupGo fa (i + ((rest.takeWhile (fun t => t.parallel)).length + 1))
              (rest.dropWhile (fun t => t.parallel)) with
          | nil => rw [hG] at hy; simp at hy
          | cons g2 gs3 =>
            rw [hG] at hy
            simp only [List.head?_cons, Option.mem_def, Option.some.injEq] at hy
            subst hy
            obtain ⟨s2, ls2, hdweq, hpar⟩ := ihd g2 gs3 hG
            have : s2.parallel = false := dropWhile_head_neg hdweq
            intro hcon
            rw [hpar, this] at hcon
            exact absurd hcon.2 (by simp)
      · have hp' : s.parallel = false := by simpa using hp
        obtain ⟨iha, ihb, ihc, ihd, ihe⟩ :=
          ih fa (Nat.lt_succ_self fa) (i + 1) rest (by omega)
        simp only [groupGo, hp', if_false, Bool.false_eq_true]
        refine ⟨?_, ?_, ?_, ?_, ?_⟩
        · simp [List.flatMap_cons, iha]
        · intro g hg
          rcases List.mem_cons.mp hg with hg | hg
          · subst hg
            exact ⟨fun htrue => by simp at htrue, fun _ => ⟨s, rfl, hp'⟩⟩
          · exact ihb g hg
        · exact ⟨rfl, ihc⟩
        · intro g gs2 heq
          injection heq with h1 h2
          subst h1
          exact ⟨s, rest, rfl, hp'.symm⟩
        · refine List.chain'_cons'.mpr ⟨?_, ihe⟩
          intro y hy
          intro hcon
          simp at hcon

/-- Specialisation of the master invariant to `groupSteps`. -/
theorem groupSteps_master (steps : List StepConfig) :
    ((groupSteps steps).flatMap (fun g => g.steps) = steps)
    ∧ (∀ g ∈ groupSteps steps,
        (g.parallel = true → g.steps ≠ [] ∧ ∀ s ∈ g.steps, s.parallel = true)
        ∧ (g.parallel = false → ∃ s, g.steps = [s] ∧ s.parallel = false))
    ∧ startsOk 0 (groupSteps steps)
    ∧ (∀ g gs2, groupSteps steps = g :: gs2 →
        ∃ s ls, steps = s :: ls ∧ g.parallel = s.parallel)
    ∧ List.Chain' (fun a b => ¬(a.parallel = true ∧ b.parallel = true))
        (groupSteps steps) :=
  groupGo_master steps.length 0 steps (le_refl _)

/-- Every flat index below the member count lies in some group. -/
theorem startsOk_cover :
    ∀ (gs : List StepGroup) (i j : Nat), startsOk i gs →
      j < (gs.flatMap (fun g => g.steps)).length →
      ∃ g ∈ gs, g.startIndex ≤ i + j ∧ i + j < g.startIndex + g.steps.length := by
  intro gs
  induction gs with
  | nil =>
    intro i j _ hj
    simp at hj
  | cons g rest ih =>
    intro i j hok hj
    obtain ⟨hstart, hrest⟩ := hok
    simp only [List.flatMap_cons, List.length_append] at hj
    by_cases hcase : j < g.steps.length
    · exact ⟨g, by simp, by omega, by omega⟩
    · obtain ⟨g2, hg2, ha, hb⟩ :=
        ih (i + g.steps.length) (j - g.steps.length) hrest (by omega)
      exact ⟨g2, by simp [hg2], by omega, by omega⟩

/-- Every index into the step list is covered by a group of `groupSteps`. -/
theorem groupSteps_cover (steps : List StepConfig) (j : Nat)
    (hj : j < steps.length) :
    ∃ g ∈ groupSteps steps, groupContains g j = true := by
  obtain ⟨hflat, -, hok, -, -⟩ := groupSteps_master steps
  obtain ⟨g, hg, ha, hb⟩ :=
    startsOk_cover (groupSteps steps) 0 j hok (by rw [hflat]; exact hj)
  exact ⟨g, hg, by simp [groupContains]; omega⟩

/-! ## Search lemmas -/

theorem find?_exists {p : α → Bool} :
    ∀ {l : List α}, (∃ a ∈ l, p a = true) → ∃ b, l.find? p = some b := by
  intro l
  induction l with
  | nil => rintro ⟨a, ha, -⟩; simp at ha
  | cons x xs ih =>
    rintro ⟨a, ha, hpa⟩
    by_cases hx : p x
    · exact ⟨x, by rw [List.find?_cons_of_pos _ hx]⟩
    · rcases List.mem_cons.mp ha with rfl | ha
      · exact absurd hpa hx
      · obtain ⟨b, hb⟩ := ih ⟨a, ha, hpa⟩
        exact ⟨b, by rw [List.find?_cons_of_neg _ hx]; exact hb⟩

theorem findIndexFrom_spec {p : α → Bool} :
    ∀ (l : List α) (n i : Nat), findIndexFrom p l n = some i →
      n ≤ i ∧ i - n < l.length ∧ ∃ x, l.get? (i - n) = some x ∧ p x = true := by
  intro l
  induction l with
  | nil => intro n i h; simp [findIndexFrom] at h
  | cons x xs ih =>
    intro n i h
    by_cases hx : p x
    · simp only [findIndexFrom, hx, if_true, Option.some.injEq] at h
      subst h
      exact ⟨le_refl _, by simp, x, by simp, hx⟩
    · simp only [findIndexFrom, hx, if_false, Bool.false_eq_true] at h
      obtain ⟨h1, h2, y, h3, h4⟩ := ih (n + 1) i h
      refine ⟨by omega, by simp; omega, y, ?_, h4⟩
      have : i - n = (i - (n + 1)) + 1 := by omega
      rw [this]
      simpa using h3

theorem findIndex_spec {p : α → Bool} {l : List α} {i : Nat}
    (h : findIndex p l = some i) :
    i < l.length ∧ ∃ x, l.get? i = some x ∧ p x = true := by
  obtain ⟨-, h2, x, h3, h4⟩ := findIndexFrom_spec l 0 i h
  rw [Nat.sub_zero] at h2 h3
  exact ⟨h2, x, h3, h4⟩

theorem findIndexFrom_exists {p : α → Bool} :
    ∀ {l : List α} (n : Nat), (∃ a ∈ l, p a = true) →
      ∃ i, findIndexFrom p l n = some i := by
  intro l
  induction l with
  | nil => rintro n ⟨a, ha, -⟩; simp at ha
  | cons x xs ih =>
    rintro n ⟨a, ha, hpa⟩
    by_cases hx : p x
    · exact ⟨n, by simp [findIndexFrom, hx]⟩
    · rcases List.mem_cons.mp ha with rfl | ha
      · exact absurd hpa hx
      · obtain ⟨i, hi⟩ := ih (n + 1) ⟨a, ha, hpa⟩
        exact ⟨i, by simp [findIndexFrom, hx]; exact hi⟩

theorem findIndexFrom_eq_none {p : α → Bool} :
    ∀ {l : List α} (n : Nat), (∀ a ∈ l, p a = false) →
      findIndexFrom p l n = none := by
  intro l
  induction l with
  | nil => intro n _; rfl
  | cons x xs ih =>
    intro n h
    have hx : p x = false := h x (by simp)
    simp only [findIndexFrom, hx, Bool.false_eq_true, if_false]
    exact ih (n + 1) (fun a ha => h a (by simp [ha]))

theorem findIndexFrom_append_first {p : α → Bool} :
    ∀ (pre : List α) {x : α} (post : List α) (n : Nat),
      (∀ a ∈ pre, p a = false) → p x = true →
      findIndexFrom p (pre ++ x :: post) n = some (n + pre.length) := by
  intro pre
  induction pre with
  | nil =>
    intro x post n _ hx
    simp [findIndexFrom, hx]
  | cons y ys ih =>
    intro x post n h hx
    have hy : p y = false := h y (by simp)
    rw [List.cons_append]
    simp only [findIndexFrom, hy, Bool.false_eq_true, if_false]
    rw [ih post (n + 1) (fun a ha => h a (by simp [ha])) hx]
    simp only [List.length_cons, Option.some.injEq]
    omega

/-! ## Loop-reference parsing lemmas -/

theorem cutAtLastDot_eq_none {b : List Char} (h : ∀ c ∈ b, ¬(c = '.')) :
    cutAtLastDot b = none := by
  induction b with
  | nil => rfl
  | cons c cs ih =>
    show (match cutAtLastDot cs with
          | some t => some (c :: t)
          | none => if c = '.' then some [] else none) = none
    rw [ih (fun d hd => h d (by simp [hd]))]
    simp [h c (by simp)]

theorem cutAtLastDot_append {b : List Char} (a : List Char)
    (h : ∀ c ∈ b, ¬(c = '.')) :
    cutAtLastDot (a ++ '.' :: b) = some a := by
  induction a with
  | nil =>
    show (match cutAtLastDot b with
          | some t => some ('.' :: t)
          | none => if '.' = '.' then some [] else none) = some []
    rw [cutAtLastDot_eq_none h]
    simp
  | cons c cs ih =>
    show (match cutAtLastDot (cs ++ '.' :: b) with
          | some t => some (c :: t)
          | none => if c = '.' then some [] else none) = some (c :: cs)
    rw [ih]

/-- Well-formed loop references parse to the step name: the name consists
of `[\w\-.]` characters, the field part is nonempty, made of non-dot
`[\w\-.]` characters, and what follows (if anything) starts outside the
class. -/
theorem parseLoopRef_shape (name field rest : String)
    (hn1 : name.data ≠ []) (hn2 : ∀ c ∈ name.data, isRefChar c = true)
    (hf2 : ∀ c ∈ field.data, isRefChar c = true ∧ ¬(c = '.'))
    (hr : rest.data = [] ∨ ∃ c cs, rest.data = c :: cs ∧ isRefChar c = false) :
    parseLoopRef ("steps." ++ name ++ "." ++ field ++ rest) = some name := by
  have hdata : ("steps." ++ name ++ "." ++ field ++ rest).data =
      "steps.".data ++ (name.data ++ '.' :: (field.data ++ rest.data)) := by
    simp [String.data_append]
  rw [parseLoopRef]
  have hpref : strHasPref "steps." ("steps." ++ name ++ "." ++ field ++ rest) = true := by
    rw [strHasPref, hdata]
    exact hasPref_append _ _
  rw [if_pos hpref, hdata]
  have hdrop : ("steps.".data ++ (name.data ++ '.' :: (field.data ++ rest.data))).drop 6 =
      name.data ++ '.' :: (field.data ++ rest.data) := by
    rw [show (6 : Nat) = ("steps.".data).length from rfl]
    exact List.drop_left _ _
  rw [hdrop]
  have htw : (name.data ++ '.' :: (field.data ++ rest.data)).takeWhile isRefChar =
      name.data ++ '.' :: field.data := by
    rw [takeWhile_append_all _ hn2]
    rw [List.takeWhile_cons_of_pos (by simp [isRefChar])]
    rw [takeWhile_append_all _ (fun c hc => (hf2 c hc).1)]
    rcases hr with hr | ⟨c, cs, hr, hc⟩
    · rw [hr]
      simp
    · rw [hr, List.takeWhile_cons_of_neg (by simp [hc])]
      simp
  rw [htw]
  rw [cutAtLastDot_append name.data (fun c hc => (hf2 c hc).2)]
  match hnd : name.data with
  | [] => exact absurd hnd hn1
  | c :: cs =>
    show some (String.mk (c :: cs)) = some name
    rw [← hnd]

/-! ## Re-entry lemmas -/

theorem computeReEntryIndex_of_parse_none {steps : List StepConfig}
    {cond : String} (h : parseLoopRef cond = none) :
    computeReEntryIndex steps cond = 0 := by
  simp only [computeReEntryIndex, h]

theorem computeReEntryIndex_of_unknown {steps : List StepConfig}
    {cond : String} {refName : String} (h : parseLoopRef cond = some refName)
    (hunk : ∀ s ∈ steps, s.name ≠ refName) :
    computeReEntryIndex steps cond = 0 := by
  simp only [computeReEntryIndex, h, reEntryFromName]
  have hnone : findIndexFrom (fun s : StepConfig => s.name == refName) steps 0 = none :=
    findIndexFrom_eq_none 0 (fun s hs => by simpa using hunk s hs)
  simp only [findIndex, hnone]

theorem computeReEntryIndex_of_known {steps : List StepConfig}
    {cond : String} {refName : String} (h : parseLoopRef cond = some refName)
    (hknown : ∃ s ∈ steps, s.name = refName) :
    ∃ refIndex g,
      findIndex (fun s => s.name == refName) steps = some refIndex
      ∧ g ∈ groupSteps steps ∧ groupContains g refIndex = true
      ∧ computeReEntryIndex steps cond = g.startIndex := by
  obtain ⟨refIndex, hidx⟩ :=
    findIndexFrom_exists (p := fun s : StepConfig => s.name == refName) 0
      (by
        obtain ⟨s, hs, hn⟩ := hknown
        exact ⟨s, hs, by simp [hn]⟩)
  have hidx' : findIndex (fun s : StepConfig => s.name == refName) steps = some refIndex :=
    hidx
  obtain ⟨hlt, -⟩ := findIndex_spec hidx'
  obtain ⟨g0, hg0, hc0⟩ := groupSteps_cover steps refIndex hlt
  obtain ⟨g, hfind⟩ :=
    find?_exists (p := fun g => groupContains g refIndex) ⟨g0, hg0, hc0⟩
  have hgc0 := List.find?_some hfind
  have hgc : groupContains g refIndex = true := hgc0
  refine ⟨refIndex, g, hidx', List.mem_of_find?_eq_some hfind, hgc, ?_⟩
  simp only [computeReEntryIndex, h, reEntryFromName, hidx', reEntryFromIndex, hfind]

theorem shouldSkip_iff (iteration reEntry : Nat) (g : StepGroup)
    (hit : 2 ≤ iteration) :
    shouldSkip iteration reEntry g = true ↔ g.startIndex < reEntry := by
  simp only [shouldSkip, Bool.and_eq_true, decide_eq_true_eq]
  omega

/-! ## Template-resolution lemmas -/

theorem space_not_token {c : Char} (h : isJsSpace c = true) : isTokenChar c = false := by
  simp only [isJsSpace, Bool.or_eq_true, decide_eq_true_eq] at h
  rcases h with ((((h | h) | h) | h) | h) | h <;> subst h <;> decide

theorem token_not_space {c : Char} (h : isTokenChar c = true) : isJsSpace c = false := by
  by_cases hs : isJsSpace c = true
  · rw [space_not_token hs] at h
    exact absurd h (by simp)
  · simpa using hs

theorem tryToken_none {l : List Char} (h : ∀ c ∈ l, ¬(c = '{')) :
    tryToken l = none := by
  match l with
  | [] => rfl
  | [c] => rfl
  | c1 :: c2 :: rest =>
    have h1 : ¬(c1 = '{') := h c1 (by simp)
    simp [tryToken, h1]

/-- The token pattern matches `{{key}}` at the head of the input when the
key is a nonempty `[\w.]` run. -/
theorem tryToken_token (key : String) (rest : List Char)
    (h1 : key.data ≠ []) (h2 : ∀ c ∈ key.data, isTokenChar c = true) :
    tryToken ('{' :: '{' :: (key.data ++ '}' :: '}' :: rest)) =
      some (key, '{' :: '{' :: (key.data ++ ['}', '}']), rest) := by
  match hkd : key.data with
  | [] => exact absurd hkd h1
  | k0 :: ks =>
    have hk0 : isTokenChar k0 = true := h2 k0 (by rw [hkd]; simp)
    have hsp : isJsSpace k0 = false := token_not_space hk0
    have htws : ((k0 :: ks) ++ '}' :: '}' :: rest).takeWhile isJsSpace = [] := by
      rw [List.cons_append, List.takeWhile_cons_of_neg (by simp [hsp])]
    have hdws : ((k0 :: ks) ++ '}' :: '}' :: rest).dropWhile isJsSpace =
        (k0 :: ks) ++ '}' :: '}' :: rest := by
      rw [List.cons_append, List.dropWhile_cons_of_neg (by simp [hsp])]
    have hstop := takeWhile_append_stop (p := isTokenChar) (a := k0 :: ks)
      (x := '}') ('}' :: rest) (fun c hc => h2 c (by rw [hkd]; exact hc)) (by decide)
    simp only [tryToken, Bool.and_self, if_true, hkd]
    rw [htws, hdws, hstop.1, hstop.2]
    have : (('}' : Char) :: '}' :: rest).dropWhile isJsSpace = '}' :: '}' :: rest :=
      List.dropWhile_cons_of_neg (by decide)
    rw [this]
    simp only [List.takeWhile_cons_of_neg (p := isJsSpace) (by decide : ¬isJsSpace '}' = true)]
    have hmk : String.mk (k0 :: ks) = key := by rw [← hkd]
    rw [hmk]
    simp

theorem resolveChars_no_brace {vars : Store} {l : List Char}
    (h : ∀ c ∈ l, ¬(c = '{')) : resolveChars vars l = l := by
  induction l with
  | nil => rfl
  | cons c cs ih =>
    rw [resolveChars_cons, tryToken_none h]
    rw [ih (fun d hd => h d (by simp [hd]))]

theorem resolveChars_append_no_brace {vars : Store} {a : List Char} (b : List Char)
    (h : ∀ c ∈ a, ¬(c = '{')) :
    resolveChars vars (a ++ b) = a ++ resolveChars vars b := by
  induction a with
  | nil => rfl
  | cons c cs ih =>
    have hc : ¬(c = '{') := h c (by simp)
    rw [List.cons_append, resolveChars_cons]
    have htt : tryToken (c :: (cs ++ b)) = none := by
      by_cases hlen : cs ++ b = []
      · rw [hlen]; rfl
      · match hcb : cs ++ b with
        | [] => exact absurd hcb hlen
        | d :: ds =>
          simp [tryToken, hc]
    rw [htt, ih (fun d hd => h d (by simp [hd]))]
    rfl

theorem resolveChars_token (vars : Store) (key : String) (rest : List Char)
    (h1 : key.data ≠ []) (h2 : ∀ c ∈ key.data, isTokenChar c = true) :
    resolveChars vars ('{' :: '{' :: (key.data ++ '}' :: '}' :: rest)) =
      (match lookupVar vars key with
       | some v => v.data
       | none => '{' :: '{' :: (key.data ++ ['}', '}'])) ++ resolveChars vars rest := by
  rw [resolveChars_cons, tryToken_token key rest h1 h2]

/-! ## Condition-evaluation lemmas -/

theorem stripCI_refl : ∀ (w r : List Char), stripCI w (w ++ r) = some r := by
  intro w
  induction w with
  | nil => intro r; rfl
  | cons a ws ih =>
    intro r
    have ha : ciEq a a = true := by simp [ciEq]
    simp only [List.cons_append, stripCI, ha, if_true]
    exact ih r

theorem quotePart_plain {t0 : Char} {ts : List Char}
    (ht2 : ∀ c ∈ t0 :: ts, ¬(c = '"')) :
    quotePart (t0 :: ts) = some (t0 :: ts) := by
  have ht0 : ¬(t0 = '"') := ht2 t0 (by simp)
  have htw : (t0 :: ts).takeWhile (fun d => !(d = '"')) = t0 :: ts :=
    takeWhile_eq_self (fun c hc => by simp [ht2 c hc])
  have hdw : (t0 :: ts).dropWhile (fun d => !(d = '"')) = [] :=
    dropWhile_eq_nil (fun c hc => by simp [ht2 c hc])
  simp only [quotePart, if_neg ht0, htw, hdw]

theorem quotePart_quoted {t0 : Char} {ts : List Char}
    (ht2 : ∀ c ∈ t0 :: ts, ¬(c = '"')) :
    quotePart ('"' :: ((t0 :: ts) ++ ['"'])) = some (t0 :: ts) := by
  have hstop := takeWhile_append_stop (p := fun d => !(d = '"'))
    (a := t0 :: ts) (x := '"') [] (fun c hc => by simp [ht2 c hc]) (by decide)
  simp only [quotePart, if_pos rfl, hstop.1, hstop.2]
  simp

theorem containsParse_shape_list (pd td : List Char)
    (hp1 : pd ≠ []) (hp2 : ∀ c ∈ pd, isTokenChar c = true)
    (ht1 : td ≠ []) (ht2 : ∀ c ∈ td, ¬(c = '"'))
    (ht3 : ∀ c cs, td = c :: cs → isJsSpace c = false) :
    containsParse
        (pd ++ ' ' :: 'c' :: 'o' :: 'n' :: 't' :: 'a' :: 'i' :: 'n' :: 's' :: ' ' :: td) =
      some (String.mk pd, String.mk td) := by
  match td, ht1 with
  | t0 :: ts, _ =>
  have hstop := takeWhile_append_stop (p := isTokenChar) (a := pd) (x := ' ')
    ('c' :: 'o' :: 'n' :: 't' :: 'a' :: 'i' :: 'n' :: 's' :: ' ' :: (t0 :: ts))
    hp2 (by decide)
  have hpe : pd.isEmpty = false := by
    match pd, hp1 with
    | p0 :: ps, _ => rfl
  have htw1 : (' ' :: 'c' :: 'o' :: 'n' :: 't' :: 'a' :: 'i' :: 'n' :: 's' :: ' ' ::
      (t0 :: ts)).takeWhile isJsSpace =
      ' ' :: (('c' :: 'o' :: 'n' :: 't' :: 'a' :: 'i' :: 'n' :: 's' :: ' ' ::
        (t0 :: ts)).takeWhile isJsSpace) :=
    List.takeWhile_cons_of_pos (by decide)
  have hdw1 : (' ' :: 'c' :: 'o' :: 'n' :: 't' :: 'a' :: 'i' :: 'n' :: 's' :: ' ' ::
      (t0 :: ts)).dropWhile isJsSpace =
      'c' :: 'o' :: 'n' :: 't' :: 'a' :: 'i' :: 'n' :: 's' :: ' ' :: (t0 :: ts) := by
    rw [List.dropWhile_cons_of_pos (by decide)]
    exact List.dropWhile_cons_of_neg (by decide)
  have hstrip : stripCI "contains".data
      ('c' :: 'o' :: 'n' :: 't' :: 'a' :: 'i' :: 'n' :: 's' :: ' ' :: (t0 :: ts)) =
      some (' ' :: (t0 :: ts)) := by
    rw [show ('c' :: 'o' :: 'n' :: 't' :: 'a' :: 'i' :: 'n' :: 's' :: ' ' :: (t0 :: ts)) =
      "contains".data ++ (' ' :: (t0 :: ts)) from rfl]
    exact stripCI_refl _ _
  have ht0s : isJsSpace t0 = false := ht3 t0 ts rfl
  have htw2 : (' ' :: (t0 :: ts)).takeWhile isJsSpace =
      ' ' :: ((t0 :: ts).takeWhile isJsSpace) :=
    List.takeWhile_cons_of_pos (by decide)
  have hdw2 : (' ' :: (t0 :: ts)).dropWhile isJsSpace = t0 :: ts := by
    rw [List.dropWhile_cons_of_pos (by decide)]
    exact List.dropWhile_cons_of_neg (by simp [ht0s])
  simp only [containsParse, hstop.1, hstop.2, hpe, Bool.false_eq_true, if_false,
    htw1, hdw1, List.isEmpty_cons, hstrip, htw2, hdw2, quotePart_plain ht2]

theorem equalsParse_shape_list (pd td : List Char)
    (hp1 : pd ≠ []) (hp2 : ∀ c ∈ pd, isTokenChar c = true)
    (ht1 : td ≠ [])
    (ht3 : ∀ c cs, td = c :: cs → isJsSpace c = false)
    (ht4 : ∀ c ∈ td, ¬(c = '\n') ∧ ¬(c = '\r')) :
    equalsParse (pd ++ ' ' :: '=' :: '=' :: ' ' :: td) =
      some (String.mk pd, String.mk td) := by
  match td, ht1 with
  | t0 :: ts, _ =>
  have hstop := takeWhile_append_stop (p := isTokenChar) (a := pd) (x := ' ')
    ('=' :: '=' :: ' ' :: (t0 :: ts)) hp2 (by decide)
  have hpe : pd.isEmpty = false := by
    match pd, hp1 with
    | p0 :: ps, _ => rfl
  have hdw1 : (' ' :: '=' :: '=' :: ' ' :: (t0 :: ts)).dropWhile isJsSpace =
      '=' :: '=' :: ' ' :: (t0 :: ts) := by
    rw [List.dropWhile_cons_of_pos (by decide)]
    exact List.dropWhile_cons_of_neg (by decide)
  have ht0s : isJsSpace t0 = false := ht3 t0 ts rfl
  have hdw2 : (' ' :: (t0 :: ts)).dropWhile isJsSpace = t0 :: ts := by
    rw [List.dropWhile_cons_of_pos (by decide)]
    exact List.dropWhile_cons_of_neg (by simp [ht0s])
  have hany : (t0 :: ts).any (fun c => c = '\n' || c = '\r') = false := by
    rw [Bool.eq_false_iff]
    intro hcon
    rw [List.any_eq_true] at hcon
    obtain ⟨c, hc, hcc⟩ := hcon
    rcases Bool.or_eq_true _ _ |>.mp hcc with hcc | hcc
    · exact (ht4 c hc).1 (by simpa using hcc)
    · exact (ht4 c hc).2 (by simpa using hcc)
  simp only [equalsParse, hstop.1, hstop.2, hpe, Bool.false_eq_true, if_false,
    hdw1, hdw2, List.isEmpty_cons, hany]

/-- On an `==`-shaped condition the `contains` pattern fails. -/
theorem containsParse_none_on_equals (pd td : List Char)
    (hp2 : ∀ c ∈ pd, isTokenChar c = true) :
    containsParse (pd ++ ' ' :: '=' :: '=' :: ' ' :: td) = none := by
  have hstop := takeWhile_append_stop (p := isTokenChar) (a := pd) (x := ' ')
    ('=' :: '=' :: ' ' :: td) hp2 (by decide)
  have hdw1 : (' ' :: '=' :: '=' :: ' ' :: td).dropWhile isJsSpace =
      '=' :: '=' :: ' ' :: td := by
    rw [List.dropWhile_cons_of_pos (by decide)]
    exact List.dropWhile_cons_of_neg (by decide)
  have hstrip : stripCI "contains".data ('=' :: '=' :: ' ' :: td) = none := by
    show stripCI ('c' :: "ontains".data) ('=' :: '=' :: ' ' :: td) = none
    simp only [stripCI]
    rw [if_neg (by decide)]
  by_cases hpe : pd.isEmpty
  · simp only [containsParse, hstop.1, hpe, if_true]
  · simp only [containsParse, hstop.1, hstop.2, hdw1, hstrip]
    simp [hpe]

theorem containsParse_shape_list_quoted (pd td : List Char)
    (hp1 : pd ≠ []) (hp2 : ∀ c ∈ pd, isTokenChar c = true)
    (ht1 : td ≠ []) (ht2 : ∀ c ∈ td, ¬(c = '"')) :
    containsParse
        (pd ++ ' ' :: 'c' :: 'o' :: 'n' :: 't' :: 'a' :: 'i' :: 'n' :: 's' :: ' ' ::
          '"' :: (td ++ ['"'])) =
      some (String.mk pd, String.mk td) := by
  match td, ht1 with
  | t0 :: ts, _ =>
  have hstop := takeWhile_append_stop (p := isTokenChar) (a := pd) (x := ' ')
    ('c' :: 'o' :: 'n' :: 't' :: 'a' :: 'i' :: 'n' :: 's' :: ' ' :: '"' ::
      ((t0 :: ts) ++ ['"'])) hp2 (by decide)
  have hpe : pd.isEmpty = false := by
    match pd, hp1 with
    | p0 :: ps, _ => rfl
  have htw1 : (' ' :: 'c' :: 'o' :: 'n' :: 't' :: 'a' :: 'i' :: 'n' :: 's' :: ' ' ::
      '"' :: ((t0 :: ts) ++ ['"'])).takeWhile isJsSpace =
      ' ' :: (('c' :: 'o' :: 'n' :: 't' :: 'a' :: 'i' :: 'n' :: 's' :: ' ' ::
        '"' :: ((t0 :: ts) ++ ['"'])).takeWhile isJsSpace) :=
    List.takeWhile_cons_of_pos (by decide)
  have hdw1 : (' ' :: 'c' :: 'o' :: 'n' :: 't' :: 'a' :: 'i' :: 'n' :: 's' :: ' ' ::
      '"' :: ((t0 :: ts) ++ ['"'])).dropWhile isJsSpace =
      'c' :: 'o' :: 'n' :: 't' :: 'a' :: 'i' :: 'n' :: 's' :: ' ' :: '"' ::
        ((t0 :: ts) ++ ['"']) := by
    rw [List.dropWhile_cons_of_pos (by decide)]
    exact List.dropWhile_cons_of_neg (by decide)
  have hstrip : stripCI "contains".data
      ('c' :: 'o' :: 'n' :: 't' :: 'a' :: 'i' :: 'n' :: 's' :: ' ' :: '"' ::
        ((t0 :: ts) ++ ['"'])) =
      some (' ' :: '"' :: ((t0 :: ts) ++ ['"'])) := by
    rw [show ('c' :: 'o' :: 'n' :: 't' :: 'a' :: 'i' :: 'n' :: 's' :: ' ' :: '"' ::
      ((t0 :: ts) ++ ['"'])) = "contains".data ++ (' ' :: '"' :: ((t0 :: ts) ++ ['"']))
      from rfl]
    exact stripCI_refl _ _
  have htw2 : (' ' :: '"' :: ((t0 :: ts) ++ ['"'])).takeWhile isJsSpace =
      ' ' :: (('"' :: ((t0 :: ts) ++ ['"'])).takeWhile isJsSpace) :=
    List.takeWhile_cons_of_pos (by decide)
  have hdw2 : (' ' :: '"' :: ((t0 :: ts) ++ ['"'])).dropWhile isJsSpace =
      '"' :: ((t0 :: ts) ++ ['"']) := by
    rw [List.dropWhile_cons_of_pos (by decide)]
    exact List.dropWhile_cons_of_neg (by decide)
  simp only [containsParse, hstop.1, hstop.2, hpe, Bool.false_eq_true, if_false,
    htw1, hdw1, List.isEmpty_cons, hstrip, htw2, hdw2, quotePart_quoted ht2]

theorem data_contains_shape (path text : String) :
    (path ++ " contains " ++ text).data =
      path.data ++ ' ' :: 'c' :: 'o' :: 'n' :: 't' :: 'a' :: 'i' :: 'n' :: 's' :: ' ' ::
        text.data := by
  rw [String.data_append, String.data_append, List.append_assoc]
  rfl

theorem data_contains_shape_quoted (path text : String) :
    (path ++ " contains \"" ++ text ++ "\"").data =
      path.data ++ ' ' :: 'c' :: 'o' :: 'n' :: 't' :: 'a' :: 'i' :: 'n' :: 's' :: ' ' ::
        '"' :: (text.data ++ ['"']) := by
  rw [String.data_append, String.data_append, String.data_append,
    List.append_assoc, List.append_assoc]
  rfl

theorem data_equals_shape (path text : String) :
    (path ++ " == " ++ text).data =
      path.data ++ ' ' :: '=' :: '=' :: ' ' :: text.data := by
  rw [String.data_append, String.data_append, List.append_assoc]
  rfl

theorem evaluateCondition_contains (vars : Store) (path text : String)
    (hp1 : path.data ≠ []) (hp2 : ∀ c ∈ path.data, isTokenChar c = true)
    (ht1 : text.data ≠ []) (ht2 : ∀ c ∈ text.data, ¬(c = '"'))
    (ht3 : ∀ c cs, text.data = c :: cs → isJsSpace c = false) :
    evaluateCondition (path ++ " contains " ++ text) vars =
      strIncludes (jsUpper text) (jsUpper ((lookupVar vars path).getD "")) := by
  have hc := containsParse_shape_list path.data text.data hp1 hp2 ht1 ht2 ht3
  simp only [evaluateCondition, data_contains_shape, hc]

theorem evaluateCondition_contains_quoted (vars : Store) (path text : String)
    (hp1 : path.data ≠ []) (hp2 : ∀ c ∈ path.data, isTokenChar c = true)
    (ht1 : text.data ≠ []) (ht2 : ∀ c ∈ text.data, ¬(c = '"')) :
    evaluateCondition (path ++ " contains \"" ++ text ++ "\"") vars =
      strIncludes (jsUpper text) (jsUpper ((lookupVar vars path).getD "")) := by
  have hc := containsParse_shape_list_quoted path.data text.data hp1 hp2 ht1 ht2
  simp only [evaluateCondition, data_contains_shape_quoted, hc]

theorem evaluateCondition_equals (vars : Store) (path text : String)
    (hp1 : path.data ≠ []) (hp2 : ∀ c ∈ path.data, isTokenChar c = true)
    (ht1 : text.data ≠ [])
    (ht3 : ∀ c cs, text.data = c :: cs → isJsSpace c = false)
    (ht4 : ∀ c ∈ text.data, ¬(c = '\n') ∧ ¬(c = '\r')) :
    evaluateCondition (path ++ " == " ++ text) vars =
      (jsTrim ((lookupVar vars path).getD "") == jsTrim text) := by
  have hnone := containsParse_none_on_equals path.data text.data hp2
  have he := equalsParse_shape_list path.data text.data hp1 hp2 ht1 ht3 ht4
  simp only [evaluateCondition, data_equals_shape, hnone, he]

theorem evaluateCondition_other (cond : String) (vars : Store)
    (h1 : containsParse cond.data = none) (h2 : equalsParse cond.data = none) :
    evaluateCondition cond vars = false := by
  simp only [evaluateCondition, h1, h2]

/-! ## Engine lemmas -/

theorem runIteration_append (wt : Bool) (b : Behavior) (reEntry : Nat)
    (gs1 gs2 : List StepGroup) (iter : Nat) (st : EngState) :
    runIteration wt b reEntry (gs1 ++ gs2) iter st =
      runIteration wt b reEntry gs2 iter (runIteration wt b reEntry gs1 iter st) := by
  simp [runIteration, List.foldl_append]

theorem stepGroupFold_approved (wt : Bool) (b : Behavior) (reEntry iter : Nat)
    (st : EngState) (g : StepGroup) (h : st.approved = true) :
    stepGroupFold wt b reEntry iter st g = st := by
  simp [stepGroupFold, h]

theorem runIteration_approved (wt : Bool) (b : Behavior) (reEntry : Nat)
    (gs : List StepGroup) (iter : Nat) (st : EngState) (h : st.approved = true) :
    runIteration wt b reEntry gs iter st = st := by
  induction gs with
  | nil => rfl
  | cons g rest ih =>
    show runIteration wt b reEntry rest iter (stepGroupFold wt b reEntry iter st g) = st
    rw [stepGroupFold_approved wt b reEntry iter st g h]
    exact ih

theorem execGroup_seq (wt : Bool) (b : Behavior) (iter : Nat) (s : StepConfig)
    (i : Nat) (st : EngState) :
    execGroup wt b iter ⟨false, [s], i⟩ st = runSeqStep wt b iter s st := by
  simp [execGroup]

/-- The sequential branch writes the two entries, appends one record,
requests one commit in worktree mode, and evaluates the loop condition of
a loop-carrying step against the just-updated store. -/
theorem runSeqStep_spec (wt : Bool) (b : Behavior) (iter : Nat) (s : StepConfig)
    (st : EngState) :
    (runSeqStep wt b iter s st).vars =
        setStepVars st.vars s.name (b s.name iter (resolveTemplate (inputTemplate s) st.vars))
    ∧ (runSeqStep wt b iter s st).records =
        st.records ++ [⟨s.name, iter,
          (b s.name iter (resolveTemplate (inputTemplate s) st.vars)).output,
          (b s.name iter (resolveTemplate (inputTemplate s) st.vars)).exitCode⟩]
    ∧ (runSeqStep wt b iter s st).commits =
        st.commits ++ (if wt then [s.name] else [])
    ∧ (runSeqStep wt b iter s st).approved =
        (match s.loop with
         | some lc => st.approved ||
             evaluateCondition lc.untilCond
               (setStepVars st.vars s.name
                 (b s.name iter (resolveTemplate (inputTemplate s) st.vars)))
         | none => st.approved) := by
  refine ⟨rfl, rfl, ?_, rfl⟩
  by_cases hwt : wt <;> simp [runSeqStep, hwt]

/-- All pair keys produced by a member list are step keys of its members. -/
theorem mem_parallel_pairs {u : String × String}
    {results : List (StepConfig × StepResult)}
    (h : u ∈ results.flatMap (fun mr => stepPairs mr.1.name mr.2)) :
    ∃ mr ∈ results, u.1 = outKey mr.1.name ∨ u.1 = exitKey mr.1.name := by
  rw [List.mem_flatMap] at h
  obtain ⟨mr, hmr, hu⟩ := h
  simp only [stepPairs, List.mem_cons, List.mem_singleton] at hu
  rcases hu with rfl | rfl | h
  · exact ⟨mr, hmr, Or.inl rfl⟩
  · exact ⟨mr, hmr, Or.inr rfl⟩
  · simp at h

theorem isSome_lookup_parallel_fold (v : Store)
    (results : List (StepConfig × StepResult)) (k : String)
    (h : (lookupVar v k).isSome) :
    (lookupVar (results.foldl (fun v mr => setStepVars v mr.1.name mr.2) v) k).isSome := by
  refine foldl_preserve (P := fun v => (lookupVar v k).isSome = true)
    (fun v mr => setStepVars v mr.1.name mr.2) ?_ results v h
  intro v mr hv
  exact isSome_lookup_setStepVars v mr.1.name mr.2 k hv

theorem isSome_lookup_execGroup (wt : Bool) (b : Behavior) (iter : Nat)
    (g : StepGroup) (st : EngState) (k : String)
    (h : (lookupVar st.vars k).isSome) :
    (lookupVar (execGroup wt b iter g st).vars k).isSome := by
  rw [execGroup]
  split
  · exact isSome_lookup_parallel_fold _ _ _ h
  · split
    · exact isSome_lookup_setStepVars _ _ _ _ h
    · exact h

theorem isSome_lookup_stepGroupFold (wt : Bool) (b : Behavior) (reEntry iter : Nat)
    (st : EngState) (g : StepGroup) (k : String)
    (h : (lookupVar st.vars k).isSome) :
    (lookupVar (stepGroupFold wt b reEntry iter st g).vars k).isSome := by
  rw [stepGroupFold]
  split
  · exact h
  · split
    · exact h
    · exact isSome_lookup_execGroup wt b iter g st k h

theorem isSome_lookup_runIteration (wt : Bool) (b : Behavior) (reEntry : Nat)
    (gs : List StepGroup) (iter : Nat) (st : EngState) (k : String)
    (h : (lookupVar st.vars k).isSome) :
    (lookupVar (runIteration wt b reEntry gs iter st).vars k).isSome := by
  refine foldl_preserve (P := fun st => (lookupVar st.vars k).isSome = true)
    (stepGroupFold wt b reEntry iter) ?_ gs st h
  intro st g hst
  exact isSome_lookup_stepGroupFold wt b reEntry iter st g k hst

theorem isSome_lookup_runEngine (wt : Bool) (b : Behavior)
    (steps : List StepConfig) (featureSpec : String) (k : String)
    (h : (lookupVar (initState featureSpec).vars k).isSome) :
    (lookupVar (runEngine wt b steps featureSpec).vars k).isSome := by
  refine foldl_preserve (P := fun st => (lookupVar st.vars k).isSome = true)
    (fun st it =>
      if st.approved then st
      else runIteration wt b (engineReEntry steps) (groupSteps steps) it st) ?_
    (List.range' 1 (engineMaxIter steps)) (initState featureSpec) h
  intro st it hst
  by_cases ha : st.approved
  · simpa [ha] using hst
  · simp only [ha, Bool.false_eq_true, if_false]
    exact isSome_lookup_runIteration wt b (engineReEntry steps) (groupSteps steps) it st k hst

/-! ## First-loop-step lemmas -/

theorem loopConfigOf_first (pre post : List StepConfig) (s : StepConfig)
    (lc : LoopConfig) (hpre : ∀ t ∈ pre, t.loop = none) (hs : s.loop = some lc) :
    loopConfigOf (pre ++ s :: post) = some lc := by
  have hfi : findIndex (fun t : StepConfig => t.loop.isSome) (pre ++ s :: post) =
      some (0 + pre.length) :=
    findIndexFrom_append_first pre post 0
      (fun t ht => by simp [hpre t ht]) (by simp [hs])
  rw [Nat.zero_add] at hfi
  have hget : (pre ++ s :: post).get? pre.length = some s := by
    rw [List.get?_append_right (le_refl _)]
    simp
  simp only [loopConfigOf, hfi, hget, Option.bind_some, Option.some_bind, hs]

/-! ## Parallel-group lemmas -/

/-- Shorthand for the oracle result of a member resolved against a store. -/
def memberResult (b : Behavior) (iter : Nat) (v : Store) (m : StepConfig) : StepResult :=
  b m.name iter (resolveTemplate (inputTemplate m) v)

theorem runParallelGroup_vars (wt : Bool) (b : Behavior) (iter : Nat)
    (members : List StepConfig) (st : EngState) :
    (runParallelGroup wt b iter members st).vars =
      applyPairs st.vars
        ((members.map (fun m => (m, memberResult b iter st.vars m))).flatMap
          (fun mr => stepPairs mr.1.name mr.2)) := by
  show (members.map (fun m => (m, memberResult b iter st.vars m))).foldl
      (fun v mr => setStepVars v mr.1.name mr.2) st.vars = _
  exact parallel_fold_eq_applyPairs _ _

theorem runParallelGroup_records (wt : Bool) (b : Behavior) (iter : Nat)
    (members : List StepConfig) (st : EngState) :
    (runParallelGroup wt b iter members st).records =
      st.records ++ members.map (fun m =>
        ⟨m.name, iter, (memberResult b iter st.vars m).output,
          (memberResult b iter st.vars m).exitCode⟩) := by
  show st.records ++
      (members.map (fun m => (m, memberResult b iter st.vars m))).map
        (fun mr => ⟨mr.1.name, iter, mr.2.output, mr.2.exitCode⟩) = _
  rw [List.map_map]
  rfl

theorem runParallelGroup_commits (wt : Bool) (b : Behavior) (iter : Nat)
    (members : List StepConfig) (st : EngState) :
    (runParallelGroup wt b iter members st).commits =
      st.commits ++
        (if wt then [String.intercalate " + " (members.map (fun m => m.name))]
         else []) := by
  by_cases hwt : wt <;> simp [runParallelGroup, hwt]

theorem runParallelGroup_approved (wt : Bool) (b : Behavior) (iter : Nat)
    (members : List StepConfig) (st : EngState) :
    (runParallelGroup wt b iter members st).approved = st.approved := rfl

theorem runParallelGroup_lookup_member (wt : Bool) (b : Behavior) (iter : Nat)
    (members : List StepConfig) (st : EngState)
    (hnames : members.Pairwise (fun a b => a.name ≠ b.name))
    (m : StepConfig) (hm : m ∈ members) :
    lookupVar (runParallelGroup wt b iter members st).vars (outKey m.name) =
        some (memberResult b iter st.vars m).output
    ∧ lookupVar (runParallelGroup wt b iter members st).vars (exitKey m.name) =
        some (toString (memberResult b iter st.vars m).exitCode) := by
  obtain ⟨l1, l2, rfl⟩ := List.append_of_mem hm
  have hl2 : ∀ t ∈ l2, m.name ≠ t.name := by
    have h1 := (List.pairwise_append.mp hnames).2.1
    exact (List.pairwise_cons.mp h1).1
  rw [runParallelGroup_vars]
  rw [List.map_append, List.map_cons, List.flatMap_append, List.flatMap_cons]
  set f := fun m => (m, memberResult b iter st.vars m) with hf
  set U1 := (l1.map f).flatMap (fun mr => stepPairs mr.1.name mr.2) with hU1
  set U2 := (l2.map f).flatMap (fun mr => stepPairs mr.1.name mr.2) with hU2
  have hU2key : ∀ u ∈ U2, ∃ m2 ∈ l2, u.1 = outKey m2.name ∨ u.1 = exitKey m2.name := by
    intro u hu
    obtain ⟨mr, hmr, hor⟩ := mem_parallel_pairs hu
    rw [List.mem_map] at hmr
    obtain ⟨m2, hm2, rfl⟩ := hmr
    exact ⟨m2, hm2, hor⟩
  constructor
  · have hdecomp : U1 ++ (stepPairs (f m).1.name (f m).2 ++ U2) =
        U1 ++ (outKey m.name, (memberResult b iter st.vars m).output) ::
          ((exitKey m.name, toString (memberResult b iter st.vars m).exitCode) :: U2) := by
      rfl
    rw [hdecomp]
    apply lookup_applyPairs_mid
    intro u hu
    rcases List.mem_cons.mp hu with rfl | hu
    · exact Ne.symm (outKey_ne_exitKey m.name m.name)
    · obtain ⟨m2, hm2, hor⟩ := hU2key u hu
      rcases hor with h | h
      · rw [h]
        intro hcon
        exact hl2 m2 hm2 (outKey_inj hcon).symm
      · rw [h]
        exact Ne.symm (outKey_ne_exitKey m.name m2.name)
  · have hdecomp : U1 ++ (stepPairs (f m).1.name (f m).2 ++ U2) =
        (U1 ++ [(outKey m.name, (memberResult b iter st.vars m).output)]) ++
          (exitKey m.name, toString (memberResult b iter st.vars m).exitCode) :: U2 := by
      simp [stepPairs]
    rw [hdecomp]
    apply lookup_applyPairs_mid
    intro u hu
    obtain ⟨m2, hm2, hor⟩ := hU2key u hu
    rcases hor with h | h
    · rw [h]
      exact outKey_ne_exitKey m2.name m.name
    · rw [h]
      intro hcon
      exact hl2 m2 hm2 (exitKey_inj hcon).symm

theorem runParallelGroup_lookup_other (wt : Bool) (b : Behavior) (iter : Nat)
    (members : List StepConfig) (st : EngState) (k : String)
    (h : ∀ m ∈ members, ¬(k = outKey m.name) ∧ ¬(k = exitKey m.name)) :
    lookupVar (runParallelGroup wt b iter members st).vars k =
      lookupVar st.vars k := by
  rw [runParallelGroup_vars]
  apply lookup_applyPairs_notmem
  intro u hu
  obtain ⟨mr, hmr, hor⟩ := mem_parallel_pairs hu
  rw [List.mem_map] at hmr
  obtain ⟨m2, hm2, rfl⟩ := hmr
  rcases hor with hk | hk
  · rw [hk]
    intro hcon
    exact (h m2 hm2).1 hcon.symm
  · rw [hk]
    intro hcon
    exact (h m2 hm2).2 hcon.symm

/-! ## Adapter and prerequisite helper lemmas -/

theorem hasPref_append_of {p a : List Char} (b : List Char)
    (h : hasPref p a = true) : hasPref p (a ++ b) = true := by
  induction p generalizing a with
  | nil => rfl
  | cons c cs ih =>
    match a, h with
    | a0 :: as, h =>
      simp only [hasPref, Bool.and_eq_true] at h
      simp only [List.cons_append, hasPref, Bool.and_eq_true]
      exact ⟨h.1, ih (a := as) h.2⟩

theorem strHasPref_append (p a b : String) (h : strHasPref p a = true) :
    strHasPref p (a ++ b) = true := by
  rw [strHasPref, String.data_append]
  exact hasPref_append_of b.data h

theorem mem_dedupFirst :
    ∀ (l seen : List String) (x : String),
      x ∈ dedupFirst seen l ↔ x ∈ l ∧ ¬(x ∈ seen) := by
  intro l
  induction l with
  | nil => intro seen x; simp [dedupFirst]
  | cons y ys ih =>
    intro seen x
    by_cases hy : seen.contains y
    · have hymem : y ∈ seen := by simpa using hy
      simp only [dedupFirst, hy, if_true, List.mem_cons]
      rw [ih seen x]
      constructor
      · rintro ⟨hx, hns⟩
        exact ⟨Or.inr hx, hns⟩
      · rintro ⟨hx | hx, hns⟩
        · exact absurd (hx ▸ hymem) hns
        · exact ⟨hx, hns⟩
    · have hymem : ¬(y ∈ seen) := by simpa using hy
      simp only [dedupFirst, hy, Bool.false_eq_true, if_false, List.mem_cons]
      rw [ih (y :: seen) x]
      constructor
      · rintro (rfl | ⟨hx, hns⟩)
        · exact ⟨Or.inl rfl, hymem⟩
        · simp only [List.mem_cons] at hns
          exact ⟨Or.inr hx, fun hc => hns (Or.inr hc)⟩
      · rintro ⟨rfl | hx, hns⟩
        · exact Or.inl rfl
        · by_cases hxy : x = y
          · exact Or.inl hxy
          · exact Or.inr ⟨hx, by simp [hxy, hns]⟩

/-! # Claim theorems -/

/-- C1: for every ordered step list, the Step Grouper returns groups in
order such that flattening the groups' member lists reproduces the input
exactly; every parallel-tagged group is a nonempty run of
parallel-flagged steps (so a lone parallel-flagged step forms a one-member
parallel group); every non-parallel group is a singleton holding a
non-parallel step; each group's start index is the number of members
before it, i.e. the position of its first member in the input; and no two
adjacent groups are both parallel, so every maximal run of consecutive
parallel-flagged steps forms exactly one parallel group. -/
theorem claim_C1_grouper (steps : List StepConfig) :
    ((groupSteps steps).flatMap (fun g => g.steps) = steps)
    ∧ (∀ g ∈ groupSteps steps,
        (g.parallel = true → g.steps ≠ [] ∧ ∀ s ∈ g.steps, s.parallel = true)
        ∧ (g.parallel = false → ∃ s, g.steps = [s] ∧ s.parallel = false))
    ∧ startsOk 0 (groupSteps steps)
    ∧ List.Chain' (fun a b => ¬(a.parallel = true ∧ b.parallel = true))
        (groupSteps steps) := by
  obtain ⟨h1, h2, h3, -, h5⟩ := groupSteps_master steps
  exact ⟨h1, h2, h3, h5⟩

/-- Witness for C1 at the concrete `demoSteps` workflow, including a
discharged inner hypothesis (the parallel batch of `demoSteps`). -/
theorem claim_C1_grouper_witness :
    ((groupSteps demoSteps).flatMap (fun g => g.steps) = demoSteps)
    ∧ startsOk 0 (groupSteps demoSteps)
    ∧ (∀ s ∈ (⟨true,
        [⟨"a1", some "dev", some "p1", none, true, none⟩,
         ⟨"a2", some "dev", some "p2", none, true, none⟩,
         ⟨"a3", some "dev", some "p3", none, true, none⟩], 1⟩ : StepGroup).steps,
        s.parallel = true) :=
  ⟨(claim_C1_grouper demoSteps).1,
   (claim_C1_grouper demoSteps).2.2.1,
   (((claim_C1_grouper demoSteps).2.1 _ (by decide)).1 rfl).2⟩

/-- C2: when the loop condition has the shape `steps.<name>.<field>…`
(name a nonempty `[\w\-.]` run, field a nonempty dot-free run, followed by
nothing or a character outside the class) and `<name>` names a step, the
re-entry index is the start index of the group containing that step (also
when the step sits inside a parallel batch); an unknown name or a
condition without that shape yields re-entry 0; and on iterations after
the first exactly the groups whose start index is below the re-entry
index are skipped. -/
theorem claim_C2_reentry (steps : List StepConfig) (name field rest : String)
    (hn1 : name.data ≠ []) (hn2 : ∀ c ∈ name.data, isRefChar c = true)
    (hf2 : ∀ c ∈ field.data, isRefChar c = true ∧ ¬(c = '.'))
    (hr : rest.data = [] ∨ ∃ c cs, rest.data = c :: cs ∧ isRefChar c = false) :
    ((∃ s ∈ steps, s.name = name) →
      ∃ refIndex g,
        findIndex (fun s => s.name == name) steps = some refIndex
        ∧ g ∈ groupSteps steps ∧ groupContains g refIndex = true
        ∧ computeReEntryIndex steps ("steps." ++ name ++ "." ++ field ++ rest) =
            g.startIndex)
    ∧ ((∀ s ∈ steps, s.name ≠ name) →
        computeReEntryIndex steps ("steps." ++ name ++ "." ++ field ++ rest) = 0)
    ∧ (∀ cond : String, parseLoopRef cond = none →
        computeReEntryIndex steps cond = 0)
    ∧ (∀ (iter reEntry : Nat) (g : StepGroup), 2 ≤ iter →
        (shouldSkip iter reEntry g = true ↔ g.startIndex < reEntry)) := by
  have hparse := parseLoopRef_shape name field rest hn1 hn2 hf2 hr
  refine ⟨?_, ?_, ?_, ?_⟩
  · intro hknown
    exact computeReEntryIndex_of_known hparse hknown
  · intro hunk
    exact computeReEntryIndex_of_unknown hparse hunk
  · intro cond h
    exact computeReEntryIndex_of_parse_none h
  · intro it re g hit
    exact shouldSkip_iff it re g hit

/-- Witness for C2: the condition `steps.a2.output contains OK` in
`demoSteps` re-enters at the parallel batch containing `a2`. -/
theorem claim_C2_reentry_witness :
    ∃ refIndex g,
      findIndex (fun s => s.name == "a2") demoSteps = some refIndex
      ∧ g ∈ groupSteps demoSteps ∧ groupContains g refIndex = true
      ∧ computeReEntryIndex demoSteps
          ("steps." ++ "a2" ++ "." ++ "output" ++ " contains OK") = g.startIndex :=
  (claim_C2_reentry demoSteps "a2" "output" " contains OK"
      (by decide) (by decide) (by decide)
      (Or.inr ⟨' ', "contains OK".data, rfl, by decide⟩)).1
    ⟨⟨"a2", some "dev", some "p2", none, true, none⟩, by decide, rfl⟩

/-- C3: for a parallel group, every member's input is resolved against the
store as of the start of the group (`st.vars` throughout, so no member
observes a sibling's output), every member contributes exactly one
execution record regardless of any member's exit code (no hypothesis on
exit codes; the function is total and the approval flag is untouched, so
a non-zero exit alone aborts nothing), after the group the store carries
both entries of every member as one batch while all other keys are
unchanged, and at most one snapshot commit is requested, naming all
members together. -/
theorem claim_C3_parallel (wt : Bool) (b : Behavior) (iter : Nat)
    (members : List StepConfig) (st : EngState)
    (hnames : members.Pairwise (fun a b => a.name ≠ b.name)) :
    (runParallelGroup wt b iter members st).records =
        st.records ++ members.map (fun m =>
          ⟨m.name, iter, (memberResult b iter st.vars m).output,
            (memberResult b iter st.vars m).exitCode⟩)
    ∧ (∀ m ∈ members,
        lookupVar (runParallelGroup wt b iter members st).vars (outKey m.name) =
            some (memberResult b iter st.vars m).output
        ∧ lookupVar (runParallelGroup wt b iter members st).vars (exitKey m.name) =
            some (toString (memberResult b iter st.vars m).exitCode))
    ∧ (∀ k, (∀ m ∈ members, ¬(k = outKey m.name) ∧ ¬(k = exitKey m.name)) →
        lookupVar (runParallelGroup wt b iter members st).vars k =
          lookupVar st.vars k)
    ∧ (runParallelGroup wt b iter members st).approved = st.approved
    ∧ (runParallelGroup wt b iter members st).commits =
        st.commits ++
          (if wt then [String.intercalate " + " (members.map (fun m => m.name))]
           else []) := by
  refine ⟨runParallelGroup_records wt b iter members st, ?_, ?_,
    runParallelGroup_approved wt b iter members st,
    runParallelGroup_commits wt b iter members st⟩
  · intro m hm
    exact runParallelGroup_lookup_member wt b iter members st hnames m hm
  · intro k hk
    exact runParallelGroup_lookup_other wt b iter members st k hk

/-- Witness for C3: a two-member parallel group with one member succeeding
and one failing; both records and both output entries are present. -/
def mixedBehavior : Behavior := fun name _ _ =>
  if name = "bad" then ⟨"boom", 2, false⟩ else ⟨"fine", 0, false⟩

/-- Members of the witness group for C3. -/
def c3Members : List StepConfig :=
  [⟨"good", some "dev", some "p", none, true, none⟩,
   ⟨"bad", some "dev", some "q", none, true, none⟩]

/-- Start state of the witness group for C3. -/
def c3State : EngState := ⟨[("feature_spec", "s")], [], false, []⟩

theorem claim_C3_parallel_witness :
    (runParallelGroup true mixedBehavior 1 c3Members c3State).records =
      c3State.records ++ c3Members.map (fun m =>
        (⟨m.name, 1,
          (memberResult mixedBehavior 1 c3State.vars m).output,
          (memberResult mixedBehavior 1 c3State.vars m).exitCode⟩ : StepRecord))
    ∧ lookupVar (runParallelGroup true mixedBehavior 1 c3Members c3State).vars
        (outKey "bad") =
      some (memberResult mixedBehavior 1 c3State.vars
        ⟨"bad", some "dev", some "q", none, true, none⟩).output :=
  ⟨(claim_C3_parallel true mixedBehavior 1 c3Members c3State
      (by simp [c3Members, List.pairwise_cons])).1,
   ((claim_C3_parallel true mixedBehavior 1 c3Members c3State
      (by simp [c3Members, List.pairwise_cons])).2.1
     ⟨"bad", some "dev", some "q", none, true, none⟩ (by decide)).1⟩

/-- C4: the condition evaluator recognises precisely the two regex
grammars of the code.  A `<path> contains <text>` condition (path a
nonempty `[\w.]` run; text nonempty, quote-free, not starting with
whitespace, optionally wrapped in double quotes) evaluates to the
case-insensitive substring test of the stored value (empty when the path
is missing) against the text, uppercasing both sides; a `<path> == <text>`
condition (text additionally newline-free) evaluates to exact equality of
the two trimmed strings; and every condition rejected by both patterns
evaluates to false. -/
theorem claim_C4_conditions (vars : Store) (path text : String)
    (hp1 : path.data ≠ []) (hp2 : ∀ c ∈ path.data, isTokenChar c = true)
    (ht1 : text.data ≠ []) (ht2 : ∀ c ∈ text.data, ¬(c = '"'))
    (ht3 : ∀ c cs, text.data = c :: cs → isJsSpace c = false) :
    (evaluateCondition (path ++ " contains " ++ text) vars =
        strIncludes (jsUpper text) (jsUpper ((lookupVar vars path).getD "")))
    ∧ (evaluateCondition (path ++ " contains \"" ++ text ++ "\"") vars =
        strIncludes (jsUpper text) (jsUpper ((lookupVar vars path).getD "")))
    ∧ ((∀ c ∈ text.data, ¬(c = '\n') ∧ ¬(c = '\r')) →
        evaluateCondition (path ++ " == " ++ text) vars =
          (jsTrim ((lookupVar vars path).getD "") == jsTrim text))
    ∧ (∀ cond : String, containsParse cond.data = none →
        equalsParse cond.data = none → evaluateCondition cond vars = false) := by
  refine ⟨evaluateCondition_contains vars path text hp1 hp2 ht1 ht2 ht3,
    evaluateCondition_contains_quoted vars path text hp1 hp2 ht1 ht2, ?_, ?_⟩
  · intro ht4
    exact evaluateCondition_equals vars path text hp1 hp2 ht1 ht3 ht4
  · intro cond h1 h2
    exact evaluateCondition_other cond vars h1 h2

/-- A concrete store for the C4 witness. -/
def demoStore : Store := [("steps.audit.output", "All Approved ok")]

/-- Witness for C4 at a concrete store and condition texts. -/
theorem claim_C4_conditions_witness :
    (evaluateCondition ("steps.audit.output" ++ " contains " ++ "Approved") demoStore =
        strIncludes (jsUpper "Approved")
          (jsUpper ((lookupVar demoStore "steps.audit.output").getD "")))
    ∧ (evaluateCondition ("steps.audit.output" ++ " == " ++ "ok") demoStore =
        (jsTrim ((lookupVar demoStore "steps.audit.output").getD "") == jsTrim "ok")) :=
  ⟨(claim_C4_conditions demoStore "steps.audit.output" "Approved"
      (by decide) (by decide) (by decide) (by decide)
      (by intro c cs h; injection h with h1 h2; rw [← h1]; decide)).1,
   (claim_C4_conditions demoStore "steps.audit.output" "ok"
      (by decide) (by decide) (by decide) (by decide)
      (by intro c cs h; injection h with h1 h2; rw [← h1]; decide)).2.2.1
     (by decide)⟩

/-- C5 counterexample: the claim admits hyphens in token bodies, but the
code's pattern `[\w.]+` does not.  The token `{{a-b}}` stays verbatim even
though the store holds key `a-b`, whereas the claim requires it to be
replaced by `"v"`. -/
theorem claim_C5_counterexample :
    resolveTemplate "{{a-b}}" [("a-b", "v")] = "{{a-b}}"
    ∧ ("{{a-b}}" : String) ≠ "v" := by
  refine ⟨by decide, by decide⟩

/-- C5 (amended): substitution replaces each `{{ … }}` token whose body is
a nonempty run of word characters and dots — hyphens are not matched —
with the stored value; a token with an absent key stays verbatim; text
without `{` is unchanged; a `{`-free prefix passes through unchanged; and
the same holds with arbitrary text after a token: resolving a template
that starts with a token substitutes (or keeps) that token and then
resolves the remaining text, so every token of the template is treated
this way and nothing outside tokens is altered. -/
theorem claim_C5_amended (vars : Store) :
    (∀ key v : String, key.data ≠ [] → (∀ c ∈ key.data, isTokenChar c = true) →
        lookupVar vars key = some v →
        resolveTemplate ("\x7b\x7b" ++ key ++ "\x7d\x7d") vars = v)
    ∧ (∀ key : String, key.data ≠ [] → (∀ c ∈ key.data, isTokenChar c = true) →
        lookupVar vars key = none →
        resolveTemplate ("\x7b\x7b" ++ key ++ "\x7d\x7d") vars = "\x7b\x7b" ++ key ++ "\x7d\x7d")
    ∧ (∀ t : String, (∀ c ∈ t.data, ¬(c = '{')) → resolveTemplate t vars = t)
    ∧ (∀ a t : String, (∀ c ∈ a.data, ¬(c = '{')) →
        resolveTemplate (a ++ t) vars = a ++ resolveTemplate t vars)
    ∧ (∀ key v rest : String, key.data ≠ [] → (∀ c ∈ key.data, isTokenChar c = true) →
        lookupVar vars key = some v →
        resolveTemplate ("\x7b\x7b" ++ key ++ "\x7d\x7d" ++ rest) vars =
          v ++ resolveTemplate rest vars)
    ∧ (∀ key rest : String, key.data ≠ [] → (∀ c ∈ key.data, isTokenChar c = true) →
        lookupVar vars key = none →
        resolveTemplate ("\x7b\x7b" ++ key ++ "\x7d\x7d" ++ rest) vars =
          "\x7b\x7b" ++ key ++ "\x7d\x7d" ++ resolveTemplate rest vars) := by
  have hdata : ∀ key : String, ("\x7b\x7b" ++ key ++ "\x7d\x7d").data =
      '{' :: '{' :: (key.data ++ '}' :: '}' :: []) := by
    intro key
    rw [String.data_append, String.data_append, List.append_assoc]
    rfl
  have hdata2 : ∀ key rest : String, ("\x7b\x7b" ++ key ++ "\x7d\x7d" ++ rest).data =
      '{' :: '{' :: (key.data ++ '}' :: '}' :: rest.data) := by
    intro key rest
    rw [String.data_append, String.data_append, String.data_append,
      List.append_assoc, List.append_assoc]
    rfl
  refine ⟨?_, ?_, ?_, ?_, ?_, ?_⟩
  · intro key v h1 h2 hlook
    rw [resolveTemplate, hdata key, resolveChars_token vars key [] h1 h2, hlook]
    show String.mk (v.data ++ []) = v
    rw [List.append_nil]
  · intro key h1 h2 hlook
    rw [resolveTemplate, hdata key, resolveChars_token vars key [] h1 h2, hlook]
    show String.mk (('{' :: '{' :: (key.data ++ ['}', '}'])) ++ []) = _
    rw [List.append_nil, ← hdata key]
  · intro t h
    rw [resolveTemplate, resolveChars_no_brace h]
  · intro a t h
    rw [resolveTemplate, String.data_append, resolveChars_append_no_brace t.data h]
    cases a with
    | mk ad =>
      cases t with
      | mk td => rfl
  · intro key v rest h1 h2 hlook
    rw [resolveTemplate, hdata2 key rest, resolveChars_token vars key rest.data h1 h2,
      hlook]
    cases v with
    | mk vd => rfl
  · intro key rest h1 h2 hlook
    rw [resolveTemplate, hdata2 key rest, resolveChars_token vars key rest.data h1 h2,
      hlook]
    cases key with
    | mk kd => rfl

/-- Witness for C5 (amended) at concrete keys and texts, including tokens
followed by further template text. -/
theorem claim_C5_amended_witness :
    resolveTemplate ("\x7b\x7b" ++ "steps.build.output" ++ "\x7d\x7d")
        [("steps.build.output", "done")] = "done"
    ∧ resolveTemplate ("\x7b\x7b" ++ "missing" ++ "\x7d\x7d") [("steps.build.output", "done")] =
        "\x7b\x7b" ++ "missing" ++ "\x7d\x7d"
    ∧ resolveTemplate "plain text" [("steps.build.output", "done")] = "plain text"
    ∧ resolveTemplate ("\x7b\x7b" ++ "a" ++ "\x7d\x7d" ++ " then {{b}}")
        [("a", "1"), ("b", "2")] =
      "1" ++ resolveTemplate " then {{b}}" [("a", "1"), ("b", "2")]
    ∧ resolveTemplate ("\x7b\x7b" ++ "nope" ++ "\x7d\x7d" ++ " tail")
        [("a", "1"), ("b", "2")] =
      "\x7b\x7b" ++ "nope" ++ "\x7d\x7d" ++
        resolveTemplate " tail" [("a", "1"), ("b", "2")] :=
  ⟨(claim_C5_amended [("steps.build.output", "done")]).1 "steps.build.output" "done"
      (by decide) (by decide) (by decide),
   (claim_C5_amended [("steps.build.output", "done")]).2.1 "missing"
      (by decide) (by decide) (by decide),
   (claim_C5_amended [("steps.build.output", "done")]).2.2.1 "plain text" (by decide),
   (claim_C5_amended [("a", "1"), ("b", "2")]).2.2.2.2.1 "a" "1" " then {{b}}"
      (by decide) (by decide) (by decide),
   (claim_C5_amended [("a", "1"), ("b", "2")]).2.2.2.2.2 "nope" " tail"
      (by decide) (by decide) (by decide)⟩

/-- C9 counterexample: the resolver's output is not always fully
resolved — a substituted value can itself introduce a token.  With
`a ↦ "{{b}}"` and `b ↦ "x"`, one application of the resolver yields
`{{b}}` and a second application yields `x`, so applying the resolver a
second time does not return the first output unchanged. -/
theorem claim_C9_counterexample :
    ¬(resolveTemplate (resolveTemplate "{{a}}" [("a", "{{b}}"), ("b", "x")])
        [("a", "{{b}}"), ("b", "x")]
      = resolveTemplate "{{a}}" [("a", "{{b}}"), ("b", "x")]) := by
  decide

/-- C9 (amended): substitution is idempotent on already-fully-resolved
text — when one application leaves the text unchanged, a second
application with the same store leaves it unchanged as well.  (In general
the output of the resolver may contain new tokens introduced by
substituted values, as the counterexample shows.) -/
theorem claim_C9_amended (t : String) (vars : Store)
    (h : resolveTemplate t vars = t) :
    resolveTemplate (resolveTemplate t vars) vars = resolveTemplate t vars := by
  rw [h]
  exact h

/-- Witness for C9 (amended) on fully-resolved text. -/
theorem claim_C9_amended_witness :
    resolveTemplate (resolveTemplate "all done" [("a", "x")]) [("a", "x")] =
      resolveTemplate "all done" [("a", "x")] :=
  claim_C9_amended "all done" [("a", "x")] (by decide)

/-- C6 counterexample: the claim requires the timed-out flag and a
timed-out output prefix from every adapter, but `CustomAdapter.execute`
(which serves both the `custom` and `aider` selectors) never consults the
settled outcome's `timedOut` field: on a timed-out run it returns the
captured output with no flag and no prefix. -/
theorem claim_C6_counterexample :
    (customResult (some "aider --yes-always --message {{prompt}}")
        ⟨true, "", "", none⟩).timedOut = false
    ∧ strHasPref "[TIMED OUT]"
        (customResult (some "aider --yes-always --message {{prompt}}")
          ⟨true, "", "", none⟩).output = false := by
  refine ⟨rfl, by decide⟩

/-- C6 (amended): on a timed-out subprocess every invocation path still
returns a structured result (no exception).  The claude-code, codex and
gemini adapters and the shell path return exit code 1 with the timed-out
flag set and a `[TIMED OUT]` output prefix; the custom/aider adapter
returns exit code 1 as well (the killed process reports no exit code, and
`exitCode ?? 1` falls back to 1) but leaves the timed-out flag unset and
the output unprefixed. -/
theorem claim_C6_amended (p : ProcOutcome) (t : Option Nat)
    (postJson : String → String) (cmd : String) (hto : p.timedOut = true) :
    ((claudeResult t postJson p).exitCode = 1
      ∧ (claudeResult t postJson p).timedOut = true
      ∧ strHasPref "[TIMED OUT]" (claudeResult t postJson p).output = true)
    ∧ ((codexResult t p).exitCode = 1
      ∧ (codexResult t p).timedOut = true
      ∧ strHasPref "[TIMED OUT]" (codexResult t p).output = true)
    ∧ ((geminiResult t p).exitCode = 1
      ∧ (geminiResult t p).timedOut = true
      ∧ strHasPref "[TIMED OUT]" (geminiResult t p).output = true)
    ∧ ((shellResult p).exitCode = 1
      ∧ (shellResult p).timedOut = true
      ∧ strHasPref "[TIMED OUT]" (shellResult p).output = true)
    ∧ (p.exitCode = none →
        (customResult (some cmd) p).exitCode = 1
        ∧ (customResult (some cmd) p).timedOut = false) := by
  refine ⟨?_, ?_, ?_, ?_, ?_⟩
  · refine ⟨by simp [claudeResult, hto], by simp [claudeResult, hto], ?_⟩
    simp only [claudeResult, hto, if_true]
    apply strHasPref_append
    apply strHasPref_append
    apply strHasPref_append
    decide
  · refine ⟨by simp [codexResult, hto], by simp [codexResult, hto], ?_⟩
    simp only [codexResult, hto, if_true]
    apply strHasPref_append
    apply strHasPref_append
    apply strHasPref_append
    decide
  · refine ⟨by simp [geminiResult, hto], by simp [geminiResult, hto], ?_⟩
    simp only [geminiResult, hto, if_true]
    apply strHasPref_append
    apply strHasPref_append
    apply strHasPref_append
    decide
  · refine ⟨by simp [shellResult, hto], by simp [shellResult, hto], ?_⟩
    simp only [shellResult, hto, if_true]
    apply strHasPref_append
    decide
  · intro hec
    exact ⟨by simp [customResult, hec], rfl⟩

/-- Witness for C6 (amended) on a concrete timed-out outcome. -/
theorem claim_C6_amended_witness :
    (claudeResult (some 5) id ⟨true, "partial", "", none⟩).exitCode = 1
    ∧ (shellResult ⟨true, "partial", "", none⟩).timedOut = true
    ∧ (customResult (some "aider") ⟨true, "partial", "", none⟩).exitCode = 1 :=
  ⟨(claim_C6_amended ⟨true, "partial", "", none⟩ (some 5) id "aider" rfl).1.1,
   (claim_C6_amended ⟨true, "partial", "", none⟩ (some 5) id "aider" rfl).2.2.2.1.2.1,
   ((claim_C6_amended ⟨true, "partial", "", none⟩ (some 5) id "aider" rfl).2.2.2.2 rfl).1⟩

/-- C7: when some step references an agent whose configured tool fails the
availability probe, the run aborts with the missing-CLI error before any
step executes — for every behavior oracle the result is the same error
and no engine state is produced.  This holds for every selector: the
probe of `custom` and `aider` is the constant `true` of
`CustomAdapter.isAvailable`, so for those selectors the premise can never
hold (the registry itself reports them available). -/
theorem claim_C7_prereq (avail : String → Bool) (wt : Bool)
    (cfg : WorkflowConfig) (featureSpec : String)
    (h : ∃ s ∈ cfg.steps, ∃ a ac, s.agent = some a
      ∧ lookupAgent cfg.agents a = some ac ∧ probeCli avail ac.cli = false) :
    (∀ b : Behavior,
      runWorkflow avail wt b cfg featureSpec = Except.error (missingClis avail cfg))
    ∧ missingClis avail cfg ≠ []
    ∧ (∀ av : String → Bool, probeCli av "custom" = true ∧ probeCli av "aider" = true) := by
  obtain ⟨s, hs, a, ac, ha, hac, hprobe⟩ := h
  have hmem : ac.cli ∈ usedClis cfg := by
    rw [usedClis, mem_dedupFirst]
    refine ⟨?_, by simp⟩
    rw [List.mem_filterMap]
    exact ⟨s, hs, by rw [ha, Option.some_bind, hac]; rfl⟩
  have hmiss : ac.cli ∈ missingClis avail cfg := by
    rw [missingClis, List.mem_filter]
    exact ⟨hmem, by simp [hprobe]⟩
  have hne : missingClis avail cfg ≠ [] := List.ne_nil_of_mem hmiss
  have hempty : (missingClis avail cfg).isEmpty = false := by
    cases hm : missingClis avail cfg with
    | nil => exact absurd hm hne
    | cons x xs => rfl
  refine ⟨?_, hne, ?_⟩
  · intro b
    rw [runWorkflow, hempty]
    simp
  · intro av
    exact ⟨rfl, rfl⟩

/-- A concrete workflow whose only agent uses the claude-code CLI. -/
def c7Config : WorkflowConfig :=
  ⟨"wf", [("dev", ⟨"claude-code", none, none⟩)],
   [⟨"build", some "dev", some "do it", none, false, none⟩]⟩

/-- Witness for C7: with an unavailable claude-code CLI the run aborts
with the missing list for every behavior. -/
theorem claim_C7_prereq_witness :
    runWorkflow (fun _ => false) false constBehavior c7Config "spec" =
      Except.error (missingClis (fun _ => false) c7Config)
    ∧ missingClis (fun _ => false) c7Config ≠ [] :=
  ⟨(claim_C7_prereq (fun _ => false) false c7Config "spec"
      ⟨⟨"build", some "dev", some "do it", none, false, none⟩, by decide,
        "dev", ⟨"claude-code", none, none⟩, rfl, rfl, rfl⟩).1 constBehavior,
   (claim_C7_prereq (fun _ => false) false c7Config "spec"
      ⟨⟨"build", some "dev", some "do it", none, false, none⟩, by decide,
        "dev", ⟨"claude-code", none, none⟩, rfl, rfl, rfl⟩).2.1⟩

/-- C8 counterexample: the claim says the store grows by two entries per
completed step *including steps re-executed on later loop iterations*.
In `loopDemo` the single step completes twice (two records across the two
iterations), so the claim predicts `1 + 2·2 = 5` store entries, but
re-execution overwrites the same two keys in place and the final store
has only 3 entries. -/
theorem claim_C8_counterexample :
    (runEngine false constBehavior loopDemo "spec").records.length = 2
    ∧ (runEngine false constBehavior loopDemo "spec").vars.length = 3
    ∧ ¬((runEngine false constBehavior loopDemo "spec").vars.length =
        1 + 2 * (runEngine false constBehavior loopDemo "spec").records.length) := by
  refine ⟨by decide, by decide, by decide⟩

/-- C8 (amended): the store is seeded with the initiating input text under
`feature_spec`; no key is ever removed (key presence is preserved by every
iteration and by the whole run); each completed sequential step writes
exactly its two entries `steps.<name>.output` and `steps.<name>.exitCode`
and leaves every other key unchanged; the key set grows by two when the
step completes for the first time and stays the same size when a step is
re-executed on a later loop iteration (its two entries are overwritten in
place). -/
theorem claim_C8_amended (wt : Bool) (b : Behavior) (steps : List StepConfig)
    (featureSpec : String) :
    (initState featureSpec).vars = [("feature_spec", featureSpec)]
    ∧ (∀ k, (lookupVar (initState featureSpec).vars k).isSome →
        (lookupVar (runEngine wt b steps featureSpec).vars k).isSome)
    ∧ (∀ (reEntry : Nat) (gs : List StepGroup) (iter : Nat) (st : EngState) (k : String),
        (lookupVar st.vars k).isSome →
        (lookupVar (runIteration wt b reEntry gs iter st).vars k).isSome)
    ∧ (∀ (iter : Nat) (s : StepConfig) (st : EngState) (k : String),
        lookupVar (runSeqStep wt b iter s st).vars k =
          if k = exitKey s.name then
            some (toString (memberResult b iter st.vars s).exitCode)
          else if k = outKey s.name then
            some (memberResult b iter st.vars s).output
          else lookupVar st.vars k)
    ∧ (∀ (iter : Nat) (s : StepConfig) (st : EngState),
        (lookupVar st.vars (outKey s.name)).isSome →
        (lookupVar st.vars (exitKey s.name)).isSome →
        (runSeqStep wt b iter s st).vars.length = st.vars.length)
    ∧ (∀ (iter : Nat) (s : StepConfig) (st : EngState),
        lookupVar st.vars (outKey s.name) = none →
        lookupVar st.vars (exitKey s.name) = none →
        (runSeqStep wt b iter s st).vars.length = st.vars.length + 2) := by
  refine ⟨rfl, ?_, ?_, ?_, ?_, ?_⟩
  · intro k hk
    exact isSome_lookup_runEngine wt b steps featureSpec k hk
  · intro reEntry gs iter st k hk
    exact isSome_lookup_runIteration wt b reEntry gs iter st k hk
  · intro iter s st k
    exact lookup_setStepVars st.vars s.name (memberResult b iter st.vars s) k
  · intro iter s st ho he
    show (setStepVars st.vars s.name (memberResult b iter st.vars s)).length = _
    rw [setStepVars, length_setVar_present, length_setVar_present st.vars _ _ ho]
    exact isSome_lookup_setVar st.vars (outKey s.name) (exitKey s.name) _ he
  · intro iter s st ho he
    show (setStepVars st.vars s.name (memberResult b iter st.vars s)).length = _
    rw [setStepVars, length_setVar_new, length_setVar_new st.vars _ _ ho]
    rw [lookup_setVar_ne st.vars _ (Ne.symm (outKey_ne_exitKey s.name s.name))]
    exact he

/-- Witness for C8 (amended): seeding, key preservation through a run, and
first-completion growth by two on a concrete step. -/
theorem claim_C8_amended_witness :
    (initState "spec").vars = [("feature_spec", "spec")]
    ∧ (lookupVar (runEngine false constBehavior loopDemo "spec").vars
        "feature_spec").isSome
    ∧ (runSeqStep false constBehavior 1
          ⟨"s", none, none, some "make", false, none⟩
          (initState "spec")).vars.length = (initState "spec").vars.length + 2 :=
  ⟨(claim_C8_amended false constBehavior loopDemo "spec").1,
   (claim_C8_amended false constBehavior loopDemo "spec").2.1 "feature_spec" (by decide),
   (claim_C8_amended false constBehavior loopDemo "spec").2.2.2.2.2 1
     ⟨"s", none, none, some "make", false, none⟩ (initState "spec")
     (by decide) (by decide)⟩

/-- C10: the engine derives the iteration budget and the re-entry index
solely from the first loop-declaring step of the list (later loop steps do
not contribute); the condition of every sequentially executed
loop-carrying step is evaluated after that step completes, against the
just-updated store, and its outcome becomes the approval flag; an
approved state passes through a whole iteration unchanged, so once a
condition evaluates true execution stops after that group. -/
theorem claim_C10_loops (wt : Bool) (b : Behavior) :
    (∀ (pre post : List StepConfig) (s : StepConfig) (lc : LoopConfig),
        (∀ t ∈ pre, t.loop = none) → s.loop = some lc →
        engineMaxIter (pre ++ s :: post) = lc.max
        ∧ engineReEntry (pre ++ s :: post) =
            computeReEntryIndex (pre ++ s :: post) lc.untilCond)
    ∧ (∀ (iter : Nat) (s : StepConfig) (lc : LoopConfig) (i : Nat) (st : EngState),
        s.loop = some lc → st.approved = false →
        (execGroup wt b iter ⟨false, [s], i⟩ st).approved =
          evaluateCondition lc.untilCond
            (setStepVars st.vars s.name (memberResult b iter st.vars s)))
    ∧ (∀ (st : EngState) (reEntry : Nat) (gs : List StepGroup) (iter : Nat),
        st.approved = true → runIteration wt b reEntry gs iter st = st)
    ∧ (∀ (reEntry : Nat) (gs1 gs2 : List StepGroup) (iter : Nat) (st : EngState),
        (runIteration wt b reEntry gs1 iter st).approved = true →
        runIteration wt b reEntry (gs1 ++ gs2) iter st =
          runIteration wt b reEntry gs1 iter st) := by
  refine ⟨?_, ?_, ?_, ?_⟩
  · intro pre post s lc hpre hs
    have hlc := loopConfigOf_first pre post s lc hpre hs
    exact ⟨by simp only [engineMaxIter, hlc], by simp only [engineReEntry, hlc]⟩
  · intro iter s lc i st hs ha
    rw [execGroup_seq]
    have h4 := (runSeqStep_spec wt b iter s st).2.2.2
    simp only [hs, ha, Bool.false_or] at h4
    exact h4
  · intro st reEntry gs iter ha
    exact runIteration_approved wt b reEntry gs iter st ha
  · intro reEntry gs1 gs2 iter st ha
    rw [runIteration_append]
    exact runIteration_approved wt b reEntry gs2 iter _ ha

/-- A loop-free leading step for the C10 witness. -/
def c10Pre : List StepConfig := [⟨"build", none, none, some "make", false, none⟩]

/-- The first loop-declaring step for the C10 witness. -/
def c10Loop : StepConfig :=
  ⟨"audit", none, none, some "check", false,
    some ⟨"steps.audit.output contains OK", 4, "fail"⟩⟩

/-- Witness for C10: budget and re-entry of the concrete two-step workflow
come from its (first) loop step, and an approved state passes through an
iteration unchanged. -/
theorem claim_C10_loops_witness :
    (engineMaxIter (c10Pre ++ c10Loop :: []) =
        (⟨"steps.audit.output contains OK", 4, "fail"⟩ : LoopConfig).max
      ∧ engineReEntry (c10Pre ++ c10Loop :: []) =
          computeReEntryIndex (c10Pre ++ c10Loop :: [])
            (⟨"steps.audit.output contains OK", 4, "fail"⟩ : LoopConfig).untilCond)
    ∧ runIteration false constBehavior 0 (groupSteps (c10Pre ++ c10Loop :: [])) 1
        ⟨[("feature_spec", "s")], [], true, []⟩ =
      ⟨[("feature_spec", "s")], [], true, []⟩ :=
  ⟨(claim_C10_loops false constBehavior).1 c10Pre [] c10Loop
      ⟨"steps.audit.output contains OK", 4, "fail"⟩ (by decide) rfl,
   (claim_C10_loops false constBehavior).2.2.1
     ⟨[("feature_spec", "s")], [], true, []⟩ 0
     (groupSteps (c10Pre ++ c10Loop :: [])) 1 rfl⟩
